import Mathlib

/-!
Verification of the centauriDB storage and transaction core against its
natural-language specification.  Each section embeds one component of the
Go source (package `file`, `log`, `buffer`, `tx`, `record`, `btree`) as
executable Lean definitions, and proves or refutes the spec claims about it.
-/

set_option maxHeartbeats 1000000

namespace CentauriDB

/-! ## Package `file`: Page (src/unnamed/part_001)

A `Page` is a fixed-size byte buffer.  We model the byte array as a function
`Nat → Nat` whose values are always reduced modulo 256 on write, together
with the array's length (`blockSize`).  Integers are stored as 4 bytes
big-endian (`binary.BigEndian.PutUint32` of `uint32(n)`), byte slices as a
4-byte big-endian length prefix followed by the payload. -/

structure Page where
  size : Nat
  contents : Nat → Nat

namespace Page

/-- `file.NewPage`: a zeroed buffer of `blockSize` bytes. -/
def new (blockSize : Nat) : Page := ⟨blockSize, fun _ => 0⟩

/-- Write one byte (Go stores into a `[]byte`, so values are bytes). -/
def writeByte (p : Page) (i : Nat) (v : Nat) : Page :=
  ⟨p.size, fun j => if j = i then v % 256 else p.contents j⟩

/-- `uint32(n)` for a Go `int32`/`int` argument: reduction modulo `2^32`. -/
def u32ofInt (n : Int) : Nat := (n % (2 ^ 32 : Int)).toNat

/-- Interpret an unsigned 32-bit value as Go `int32`. -/
def i32ofNat (u : Nat) : Int :=
  if u < 2 ^ 31 then (u : Int) else (u : Int) - 2 ^ 32

/-- The four big-endian bytes of `u % 2^32`
(`binary.BigEndian.PutUint32`). -/
def encBE4 (u : Nat) : List Nat :=
  [u / 2 ^ 24 % 256, u / 2 ^ 16 % 256, u / 2 ^ 8 % 256, u % 256]

/-- Write a list of bytes starting at `i` (Go `copy`). -/
def writeBytes (p : Page) (i : Nat) : List Nat → Page
  | [] => p
  | v :: vs => writeBytes (p.writeByte i v) (i + 1) vs

/-- `binary.BigEndian.Uint32(p.contents[offset : offset+4])`. -/
def decodeU32 (p : Page) (offset : Nat) : Nat :=
  p.contents offset * 2 ^ 24 + p.contents (offset + 1) * 2 ^ 16 +
    p.contents (offset + 2) * 2 ^ 8 + p.contents (offset + 3)

/-- `Page.SetInt`: write `uint32(n)` big-endian at `offset`. -/
def setInt (p : Page) (offset : Nat) (n : Int) : Page :=
  p.writeBytes offset (encBE4 (u32ofInt n))

/-- `Page.GetInt`: read 4 bytes big-endian at `offset`, as `int32`. -/
def getInt (p : Page) (offset : Nat) : Int :=
  i32ofNat (decodeU32 p offset)

/-- `Page.SetBytes`: 4-byte big-endian length prefix, then the payload. -/
def setBytes (p : Page) (offset : Nat) (b : List Nat) : Page :=
  (p.setInt offset (b.length : Int)).writeBytes (offset + 4) b

/-- `Page.GetBytes`: read the length prefix, then that many payload bytes. -/
def getBytes (p : Page) (offset : Nat) : List Nat :=
  (List.range (decodeU32 p offset)).map fun i => p.contents (offset + 4 + i)

/-- `Page.SetString`: a Go string is its UTF-8 byte slice; we model strings
as byte lists, so this is `setBytes`. -/
def setString (p : Page) (offset : Nat) (s : List Nat) : Page :=
  p.setBytes offset s

/-- `Page.GetString`. -/
def getString (p : Page) (offset : Nat) : List Nat :=
  p.getBytes offset

end Page

/-- `file.MaxLength` (package-level, as called by `record.lengthInBytes` and
the log-record writers; the `Page` method computes `4 + strlen * 1`):
bytes needed for a length-prefixed string. -/
def MaxLength (strlen : Int) : Int := 4 + strlen

/-! ## Package `file`: BlockID (src/README.md, package file)

`BlockID` is a value object `(filename, blockNumber)`; comparing two of them
(or using one as a Go map key **by value**) is structural equality. -/

structure BlockID where
  filename : String
  blockNumber : Int
deriving DecidableEq

/-- `BlockID.Equals`: structural comparison of filename and block number. -/
def BlockID.Equals (b other : BlockID) : Bool :=
  b.filename = other.filename && b.blockNumber = other.blockNumber

/-! ## Package `log`: LogManager and LogIterator
(src/internal/app/log/logIterator.go)

The log file is a list of pages (block `i` of the file); the manager holds an
in-memory `logpage` for the current block.  Records are laid out bottom-up:
bytes `[0..3]` of each block hold the boundary (offset of the newest record),
and `Append` writes the record just below the previous boundary. -/

structure LogManager where
  blockSize : Nat
  logpage : Page
  currentBlockNum : Nat
  fileBlocks : List Page
  latestLSN : Nat
  lastSavedLSN : Nat

namespace LogManager

/-- The file manager's `Read` of log block `i` (a missing block reads as
zeroes; valid executions only read existing blocks). -/
def fmRead (fileBlocks : List Page) (blockSize i : Nat) : Page :=
  fileBlocks.getD i (Page.new blockSize)

/-- The private `flush`: `fm.Write(currentBlock, logpage)` and save the LSN. -/
def flushPage (lm : LogManager) : LogManager :=
  { lm with
    fileBlocks := lm.fileBlocks.set lm.currentBlockNum lm.logpage,
    lastSavedLSN := lm.latestLSN }

/-- `appendNewBlock`: `fm.Append` a zeroed block, set the in-memory page's
boundary to the block size, `fm.Write` the page to the new block.  Returns the
new block's number. -/
def appendNewBlock (lm : LogManager) : LogManager × Nat :=
  let newIdx := lm.fileBlocks.length
  let fb := lm.fileBlocks ++ [Page.new lm.blockSize]
  let lp := lm.logpage.setInt 0 (lm.blockSize : Int)
  ({ lm with fileBlocks := fb.set newIdx lp, logpage := lp }, newIdx)

/-- `NewLogManager` on an empty log file: append the first block and make it
current. -/
def new (blockSize : Nat) : LogManager :=
  let lm0 : LogManager := ⟨blockSize, Page.new blockSize, 0, [], 0, 0⟩
  let r := lm0.appendNewBlock
  { r.1 with currentBlockNum := r.2 }

/-- `LogManager.Append`: if the record does not fit below `boundary - 4`,
flush the page and start a new block; then write the record at
`boundary - (len+4)`, update the boundary, and return the next LSN. -/
def Append (lm : LogManager) (logrec : List Nat) : LogManager × Nat :=
  let boundary := lm.logpage.getInt 0
  let bytesneeded := (logrec.length : Int) + 4
  let lm1 :=
    if boundary - bytesneeded < 4 then
      let lmA := lm.flushPage.appendNewBlock
      { lmA.1 with currentBlockNum := lmA.2 }
    else lm
  let recpos := lm1.logpage.getInt 0 - bytesneeded
  let lp := (lm1.logpage.setBytes recpos.toNat logrec).setInt 0 recpos
  ({ lm1 with logpage := lp, latestLSN := lm1.latestLSN + 1 }, lm1.latestLSN + 1)

/-- `LogManager.Flush(lsn)`: write the page out iff `lsn >= lastSavedLSN`. -/
def Flush (lm : LogManager) (lsn : Int) : LogManager :=
  if (lm.lastSavedLSN : Int) ≤ lsn then lm.flushPage else lm

/-- Fold `Append` over a list of records (oldest first). -/
def appendAll (lm : LogManager) : List (List Nat) → LogManager
  | [] => lm
  | r :: rs => appendAll (lm.Append r).1 rs

end LogManager

/-- `LogIterator` state (src/internal/app/log/logIterator.go): walks records
within a block forward from the boundary, moving to the previous block when
the current one is exhausted. -/
structure LogIterator where
  blockSize : Nat
  fileBlocks : List Page
  currentBlockNum : Nat
  page : Page
  currentPos : Nat
  boundary : Nat

namespace LogIterator

/-- `NewLogIterator`: read the starting block; position at its boundary. -/
def new (fileBlocks : List Page) (blockSize blkNum : Nat) : LogIterator :=
  let p := LogManager.fmRead fileBlocks blockSize blkNum
  let bd := (p.getInt 0).toNat
  ⟨blockSize, fileBlocks, blkNum, p, bd, bd⟩

/-- `HasNext`: more records in this block, or earlier blocks remain. -/
def HasNext (it : LogIterator) : Bool :=
  decide (it.currentPos < it.blockSize) || decide (it.currentBlockNum > 0)

/-- `moveToBlock`: load a block and reset the position to its boundary. -/
def moveToBlock (it : LogIterator) (blkNum : Nat) : LogIterator :=
  let p := LogManager.fmRead it.fileBlocks it.blockSize blkNum
  let bd := (p.getInt 0).toNat
  { it with currentBlockNum := blkNum, page := p, boundary := bd, currentPos := bd }

/-- `Next`: move to the previous block if this one is exhausted, then read the
record at the current position and advance past it.  (Go decrements the block
number as an `int`; valid iterations never do so at block 0, where `HasNext`
is already false.) -/
def next (it : LogIterator) : List Nat × LogIterator :=
  let it1 :=
    if it.currentPos = it.blockSize then it.moveToBlock (it.currentBlockNum - 1)
    else it
  let recBytes := it1.page.getBytes it1.currentPos
  (recBytes, { it1 with currentPos := it1.currentPos + 4 + recBytes.length })

/-- Drain the iterator: collect up to `fuel` records while `HasNext`. -/
def collect (it : LogIterator) : Nat → List (List Nat)
  | 0 => []
  | fuel + 1 =>
    if it.HasNext then
      let r := it.next
      r.1 :: collect r.2 fuel
    else []

end LogIterator

/-- `LogManager.Iterator`: flush the current page first, then iterate from the
current block. -/
def LogManager.Iterator (lm : LogManager) : LogIterator :=
  let lmF := lm.flushPage
  LogIterator.new lmF.fileBlocks lmF.blockSize lmF.currentBlockNum

/-! ## Package `buffer`: Buffer and BufferManager.FlushAll
(src/internal/app/buffer/buffer.go; FlushAll from the BufferManager source)

Disk effects are recorded as an explicit event trace so that the order of the
log flush and the page write is visible. -/

inductive DiskEvent where
  /-- `lm.Flush(lsn)` as requested by the buffer. -/
  | logFlush (lsn : Int)
  /-- `fm.Write(b.block, b.contents)`. -/
  | pageWrite (block : Option BlockID)
  /-- `fm.Read(block, b.contents)`. -/
  | pageRead (block : BlockID)
deriving DecidableEq

structure Buffer where
  contents : Page
  block : Option BlockID
  pins : Int
  txnum : Int
  lsn : Int

namespace Buffer

/-- `NewBuffer`: empty page, no block, unpinned, clean (`txnum = lsn = -1`). -/
def NewBuffer (blockSize : Nat) : Buffer :=
  ⟨Page.new blockSize, none, 0, -1, -1⟩

/-- `SetModified(txnum, lsn)`: always record the transaction; update the
stored LSN only when the given one is non-negative. -/
def SetModified (b : Buffer) (txnum lsn : Int) : Buffer :=
  { b with txnum := txnum, lsn := if 0 ≤ lsn then lsn else b.lsn }

def IsPinned (b : Buffer) : Bool := decide (0 < b.pins)

def ModifyingTx (b : Buffer) : Int := b.txnum

/-- `Buffer.Flush`: if dirty, request `lm.Flush(lsn)`, then `fm.Write` the
page, then clear the modifying transaction. -/
def Flush (b : Buffer) : Buffer × List DiskEvent :=
  if 0 ≤ b.txnum then
    ({ b with txnum := -1 }, [DiskEvent.logFlush b.lsn, DiskEvent.pageWrite b.block])
  else (b, [])

/-- `AssignToBlock`: flush the old contents first, then read the new block. -/
def AssignToBlock (b : Buffer) (disk : BlockID → Page) (block : BlockID) :
    Buffer × List DiskEvent :=
  let r := b.Flush
  ({ r.1 with block := some block, contents := disk block, pins := 0 },
    r.2 ++ [DiskEvent.pageRead block])

def Pin (b : Buffer) : Buffer := { b with pins := b.pins + 1 }

def Unpin (b : Buffer) : Buffer := { b with pins := b.pins - 1 }

end Buffer

/-- `BufferManager.FlushAll(txNum)`: flush every pool frame whose
`ModifyingTx` equals `txNum`; the pool is a list of frames. -/
def BufferManager.FlushAll (pool : List Buffer) (txNum : Int) :
    List Buffer × List DiskEvent :=
  match pool with
  | [] => ([], [])
  | b :: rest =>
    let r := if b.ModifyingTx = txNum then b.Flush else (b, [])
    let rs := BufferManager.FlushAll rest txNum
    (r.1 :: rs.1, r.2 ++ rs.2)

/-! ## Package `tx`: the lock tables

Two lock-table implementations exist in the source.

The one in src/internal/app/tx/lockTable.go keys its map **by value**
(`map[file.BlockID]int`) and never waits: both `SLock` and `XLock` re-check
their entry condition under the same held mutex and return `ErrLockTimeout`
immediately when it fails (the timer they start is never waited on), so the
lock decision is a pure function of the table at call time.

The variant in src/unnamed/part_005 keys its map by **pointer**
(`map[*file.BlockID]int`); each entry is addressed by pointer identity, and
the ConcurrencyManager (src/unnamed/part_009) passes `&block`, a fresh
pointer to its local copy, on every call.  We model pointer identity by a
`Nat` allocation id and give the table's decision in a quiescent run (no
concurrent lock traffic: a waiting loop whose condition no other thread can
change ends in `LockAbortError` when its timer fires). -/

inductive LockResult where
  | ok
  | timeout
deriving DecidableEq

namespace LockTable

/-- The value-keyed table: `getLockVal` of an absent entry is 0. -/
def getLockVal (locks : BlockID → Int) (block : BlockID) : Int := locks block

def hasXLock (locks : BlockID → Int) (block : BlockID) : Bool :=
  decide (getLockVal locks block < 0)

/-- `LockTable.SLock` (lockTable.go): timeout iff an exclusive lock is held;
otherwise increment the shared count. -/
def SLock (locks : BlockID → Int) (block : BlockID) :
    LockResult × (BlockID → Int) :=
  if hasXLock locks block then (LockResult.timeout, locks)
  else (LockResult.ok,
    fun x => if x = block then getLockVal locks block + 1 else locks x)

/-- `LockTable.XLock` (lockTable.go): timeout iff any lock entry exists
(including the caller's own shared lock); otherwise set the entry to -1. -/
def XLock (locks : BlockID → Int) (block : BlockID) :
    LockResult × (BlockID → Int) :=
  if getLockVal locks block ≠ 0 then (LockResult.timeout, locks)
  else (LockResult.ok, fun x => if x = block then -1 else locks x)

/-- `LockTable.Unlock` (lockTable.go): decrement a multiple-holder count,
else delete the entry (an absent entry reads as 0). -/
def Unlock (locks : BlockID → Int) (block : BlockID) : BlockID → Int :=
  let val := getLockVal locks block
  if val > 1 then fun x => if x = block then val - 1 else locks x
  else if val ≠ 0 then fun x => if x = block then 0 else locks x
  else locks

end LockTable

/-- The pointer-keyed lock table of src/unnamed/part_005: entries are keyed
by the pointer passed in, modelled as an allocation id.  `nextPtr` is the
next fresh id: taking `&block` of a local variable yields a fresh allocation
per call site. -/
structure PtrLockTable where
  locks : Nat → Int
  heap : Nat → Option BlockID
  nextPtr : Nat

namespace PtrLockTable

def getLockVal (lt : PtrLockTable) (p : Nat) : Int := lt.locks p

/-- part_005 `SLock` in a quiescent run: with an exclusive entry under this
pointer the wait loop can only end by timeout; otherwise increment. -/
def SLockQ (lt : PtrLockTable) (p : Nat) : LockResult × PtrLockTable :=
  if lt.getLockVal p < 0 then (LockResult.timeout, lt)
  else (LockResult.ok,
    { lt with locks := fun x => if x = p then lt.getLockVal p + 1 else lt.locks x })

/-- part_005 `XLock` in a quiescent run: with any entry under this pointer
(`hasAnyLock`) the wait loop can only end by timeout; otherwise the
`hasOtherSLocks` check passes and the entry becomes -1. -/
def XLockQ (lt : PtrLockTable) (p : Nat) : LockResult × PtrLockTable :=
  if lt.getLockVal p ≠ 0 then (LockResult.timeout, lt)
  else (LockResult.ok,
    { lt with locks := fun x => if x = p then -1 else lt.locks x })

/-- `&block` inside one ConcurrencyManager method call: allocate a fresh
pointer id holding the method's local copy of the BlockID. -/
def allocPtr (lt : PtrLockTable) (block : BlockID) : Nat × PtrLockTable :=
  (lt.nextPtr,
    { lt with
      heap := fun x => if x = lt.nextPtr then some block else lt.heap x,
      nextPtr := lt.nextPtr + 1 })

end PtrLockTable

/-! ## Package `tx`: log records and the recovery algorithms
(src/unnamed/part_003, part_004; src/internal/app/tx/setIntRecord.go,
checkpointRecord.go, rollbackRecord.go; src/unnamed/part_002)

Log records are the tagged sum of part_004 (`CreateLogRecord` dispatches on
the leading tag).  The recovery drivers consume the records the log iterator
yields, newest first; here they take that record list directly.  The visible
database state is the contents of the pages a transaction reads and writes
through its buffers, modelled as a map from block to page with writes applied
through the `Page` codec. -/

/-- Record-type tags (part_004). -/
def CHECKPOINT : Int := 0
def START : Int := 1
def COMMIT : Int := 2
def ROLLBACK : Int := 3
def SETINT : Int := 4
def SETSTRING : Int := 5

inductive LogRecord where
  | checkpointRecord
  | startRecord (txnum : Int)
  | commitRecord (txnum : Int)
  | rollbackRecord (txnum : Int)
  | setIntRecord (txnum : Int) (block : BlockID) (offset : Nat) (oldval : Int)
  | setStringRecord (txnum : Int) (block : BlockID) (offset : Nat) (oldval : List Nat)
deriving DecidableEq

namespace LogRecord

/-- `LogRecord.Op()`. -/
def Op : LogRecord → Int
  | checkpointRecord => CHECKPOINT
  | startRecord _ => START
  | commitRecord _ => COMMIT
  | rollbackRecord _ => ROLLBACK
  | setIntRecord _ _ _ _ => SETINT
  | setStringRecord _ _ _ _ => SETSTRING

/-- `LogRecord.TxNumber()`; a checkpoint record returns the dummy -1. -/
def TxNumber : LogRecord → Int
  | checkpointRecord => -1
  | startRecord t => t
  | commitRecord t => t
  | rollbackRecord t => t
  | setIntRecord t _ _ _ => t
  | setStringRecord t _ _ _ => t

end LogRecord

/-- The transaction-visible state: the contents of each block (written
through pinned buffers) and the log as the iterator yields it — newest
record first. -/
structure TxState where
  store : BlockID → Page
  log : List LogRecord

namespace TxState

/-- Write an int through the `Page` codec at `(block, offset)`. -/
def writeInt (st : TxState) (block : BlockID) (offset : Nat) (v : Int) : TxState :=
  { st with store := fun x =>
      if x = block then (st.store block).setInt offset v else st.store x }

/-- Write a string through the `Page` codec at `(block, offset)`. -/
def writeString (st : TxState) (block : BlockID) (offset : Nat) (v : List Nat) :
    TxState :=
  { st with store := fun x =>
      if x = block then (st.store block).setString offset v else st.store x }

end TxState

namespace LogRecord

/-- `Undo(tx)` of each record.  `SetIntRecord.undo` pins the block and calls
`tx.SetInt(block, offset, oldval, false)` — an unlogged write of the old
value — then unpins; `SetStringRecord.Undo` is symmetric; the other records'
undo methods do nothing. -/
def Undo (r : LogRecord) (st : TxState) : TxState :=
  match r with
  | setIntRecord _ block offset oldval => st.writeInt block offset oldval
  | setStringRecord _ block offset oldval => st.writeString block offset oldval
  | _ => st

end LogRecord

/-- `Transaction.SetInt` with `okToLog = true` for transaction `tx`:
`rm.SetInt` reads the old value from the pinned buffer and appends a SETINT
undo record carrying it, then the new value is written and the buffer marked
modified.  (Lock acquisition and pinning succeed in the runs considered.) -/
def Transaction.SetIntLogged (tx : Int) (st : TxState) (block : BlockID)
    (offset : Nat) (v : Int) : TxState :=
  let oldval := (st.store block).getInt offset
  let st1 : TxState :=
    { st with log := LogRecord.setIntRecord tx block offset oldval :: st.log }
  st1.writeInt block offset v

/-- `RecoveryManager.doRollback` over the iterator's records (newest first):
undo every record of this transaction until its START record. -/
def doRollbackAux (txnum : Int) : List LogRecord → TxState → TxState
  | [], st => st
  | r :: rest, st =>
    if r.TxNumber = txnum then
      if r.Op = START then st
      else doRollbackAux txnum rest (r.Undo st)
    else doRollbackAux txnum rest st

/-- `doRollback`: scan the transaction's own log. -/
def doRollback (txnum : Int) (st : TxState) : TxState :=
  doRollbackAux txnum st.log st

/-- `RecoveryManager.doRecover` over the iterator's records (newest first):
stop at a CHECKPOINT; COMMIT and ROLLBACK mark their transaction finished;
undo any other record of an unfinished transaction. -/
def doRecoverAux (finished : List Int) : List LogRecord → TxState → TxState
  | [], st => st
  | r :: rest, st =>
    if r.Op = CHECKPOINT then st
    else if r.Op = COMMIT ∨ r.Op = ROLLBACK then
      doRecoverAux (r.TxNumber :: finished) rest st
    else if r.TxNumber ∈ finished then doRecoverAux finished rest st
    else doRecoverAux finished rest (r.Undo st)

def doRecover (st : TxState) : TxState :=
  doRecoverAux [] st.log st

/-- What `RecoveryManager.Recover` does after the scan: `bm.FlushAll(txnum)`,
append a CHECKPOINT record, `lm.Flush(lsn)`. -/
inductive RecoveryAction where
  | flushAll (txnum : Int)
  | appendCheckpoint
  | logFlush
deriving DecidableEq

/-- `RecoveryManager.Recover`: `doRecover()`, then flush this transaction's
buffers, then append and flush a CHECKPOINT record. -/
def RecoveryManager.Recover (txnum : Int) (st : TxState) :
    TxState × List RecoveryAction :=
  let st1 := doRecover st
  ({ st1 with log := LogRecord.checkpointRecord :: st1.log },
    [RecoveryAction.flushAll txnum, RecoveryAction.appendCheckpoint,
      RecoveryAction.logFlush])

/-- `RecoveryManager.Rollback`: `doRollback()`, then flush this transaction's
buffers, then append a ROLLBACK record and flush. -/
def RecoveryManager.Rollback (txnum : Int) (st : TxState) :
    TxState × List RecoveryAction :=
  let st1 := doRollback txnum st
  ({ st1 with log := LogRecord.rollbackRecord txnum :: st1.log },
    [RecoveryAction.flushAll txnum, RecoveryAction.logFlush])

/-! ## Package `record`: Schema and Layout
(src/internal/app/record/schema.go, src/unnamed/part_021)

`NewLayout` reserves `unsafe.Sizeof(int(0))` bytes for the empty/in-use flag
and the same for each INT field; on the 64-bit builds this repository
targets, that is 8 bytes.  VARCHAR(n) fields get `file.MaxLength(n) = 4 + n`
bytes. -/

/-- `schema.FieldType` values (`INTEGER FieldType = 1`, `VARCHAR = 2`). -/
def INTEGER : Int := 1
def VARCHAR : Int := 2

structure FieldInfo where
  dataType : Int
  length : Int
deriving DecidableEq

/-- `record.Schema`: the ordered field list plus the name → info map. -/
structure Schema where
  fields : List String
  info : String → Option FieldInfo

namespace Schema

def new : Schema := ⟨[], fun _ => none⟩

/-- `Schema.AddField`. -/
def AddField (s : Schema) (fieldName : String) (dataType : Int) (length : Int) :
    Schema :=
  ⟨s.fields ++ [fieldName],
    fun n => if n = fieldName then some ⟨dataType, length⟩ else s.info n⟩

def AddIntField (s : Schema) (fieldName : String) : Schema :=
  s.AddField fieldName INTEGER 0

def AddStringField (s : Schema) (fieldName : String) (length : Int) : Schema :=
  s.AddField fieldName VARCHAR length

/-- `Schema.DataType`: -1 when the field is missing. -/
def DataType (s : Schema) (fieldname : String) : Int :=
  match s.info fieldname with
  | some i => i.dataType
  | none => -1

/-- `Schema.Length`: -1 when the field is missing. -/
def Length (s : Schema) (fieldname : String) : Int :=
  match s.info fieldname with
  | some i => i.length
  | none => -1

end Schema

/-- `unsafe.Sizeof(int(0))` on the 64-bit builds this repository targets. -/
def sizeofGoInt : Int := 8

/-- `record.lengthInBytes`: bytes to store a field. -/
def lengthInBytes (schema : Schema) (fieldname : String) : Int :=
  if schema.DataType fieldname = INTEGER then sizeofGoInt
  else MaxLength (schema.Length fieldname)

/-- `record.Layout`. -/
structure Layout where
  schema : Schema
  offsets : String → Option Int
  slotSize : Int

/-- `record.NewLayout`: start `pos` at `unsafe.Sizeof(int(0))` (space for the
empty/in-use flag), assign each field the running `pos` and advance it by
`lengthInBytes`; the final `pos` is the slot size. -/
def NewLayout (schema : Schema) : Layout :=
  let r := schema.fields.foldl
    (fun (acc : (String → Option Int) × Int) (fieldName : String) =>
      ((fun n => if n = fieldName then some acc.2 else acc.1 n),
        acc.2 + lengthInBytes schema fieldName))
    ((fun _ => none), sizeofGoInt)
  ⟨schema, r.1, r.2⟩

/-- `Layout.Offset`: -1 when the field is missing. -/
def Layout.Offset (l : Layout) (fieldname : String) : Int :=
  match l.offsets fieldname with
  | some o => o
  | none => -1

/-- `Layout.SlotSize`. -/
def Layout.SlotSize (l : Layout) : Int := l.slotSize

/-! ## Package `btree`: BTPage, BTreeLeaf, BTreeDir, BTreeIndex
(src/internal/app/index/btree/btPage.go, btreeDir.go, btreeIndex.go;
src/unnamed/part_023)

The B-tree claims concern an integer-keyed index, so `dataval` is an `Int`
(`types.Constant` restricted to ints; `CompareTo`/`Equals` are Int order and
equality).  A page is modelled at the record level: its flag int plus the
list of its first `GetNumRecs()` records — exactly what the byte-level
`BTPage` accessors maintain through the slot arithmetic verified in the
record-layout section.  Reads beyond the record count return the formatted
default (zeroes), as `Format`/`makeDefaultRecord` leave them.  A file is the
list of its blocks; `tx.Append` adds a formatted block at the end. -/

/-- `types.RID`. -/
structure RID where
  blockNumber : Int
  slot : Int
deriving DecidableEq

/-- One leaf index record: `(dataval, block, id)`. -/
structure LeafRec where
  dataval : Int
  block : Int
  id : Int
deriving DecidableEq, Inhabited

/-- One directory record: `(block, dataval)`. -/
structure DirRec where
  block : Int
  dataval : Int
deriving DecidableEq, Inhabited

/-- A leaf-file block: flag (−1, or the overflow block number) and records. -/
structure BTBlock where
  flag : Int
  recs : List LeafRec
deriving DecidableEq

/-- A directory-file block: flag (the level) and records. -/
structure DirBlock where
  flag : Int
  recs : List DirRec
deriving DecidableEq

/-- Block and slot sizes that `BTPage.IsFull`/`slotPos` read from the
transaction and the layouts. -/
structure BTreeParams where
  blockSize : Int
  leafSlotSize : Int
  dirSlotSize : Int

/-- `math.MinInt32`, the sentinel dataval of a fresh root. -/
def minInt32 : Int := -2147483648

/-- Read leaf block `i` of the file. -/
def getBlock (file : List BTBlock) (i : Int) : BTBlock :=
  file.getD i.toNat ⟨-1, []⟩

/-- Read directory block `i` of the file. -/
def getDir (file : List DirBlock) (i : Int) : DirBlock :=
  file.getD i.toNat ⟨0, []⟩

/-- `BTPage.FindSlotBefore` on a leaf block: step past the records below the
search key (the loop advances while `dataval(slot) < key`), then return the
slot before the stop position. -/
def BTBlock.FindSlotBefore (b : BTBlock) (key : Int) : Int :=
  ((b.recs.takeWhile fun r => decide (r.dataval < key)).length : Int) - 1

/-- `BTPage.GetDataVal` on a leaf block (the formatted default is 0). -/
def BTBlock.GetDataVal (b : BTBlock) (slot : Int) : Int :=
  (b.recs.getD slot.toNat default).dataval

/-- `BTPage.GetDataRid`. -/
def BTBlock.GetDataRid (b : BTBlock) (slot : Int) : RID :=
  ⟨(b.recs.getD slot.toNat default).block, (b.recs.getD slot.toNat default).id⟩

/-- `BTPage.IsFull`: `slotPos(numRecs + 1) ≥ blockSize`, with
`slotPos(s) = 4 + 4 + s * slotSize`. -/
def BTBlock.IsFull (P : BTreeParams) (b : BTBlock) : Prop :=
  8 + ((b.recs.length : Int) + 1) * P.leafSlotSize ≥ P.blockSize

instance (P : BTreeParams) (b : BTBlock) : Decidable (b.IsFull P) := by
  rw [BTBlock.IsFull]
  infer_instance

/-- `BTPage.InsertLeaf` on block `blk` of the file: shift the records at and
after `slot` and write the new one there. -/
def insertLeafF (file : List BTBlock) (blk : Int) (slot : Nat) (val : Int)
    (rid : RID) : List BTBlock :=
  let b := getBlock file blk
  file.set blk.toNat { b with recs := b.recs.insertIdx slot ⟨val, rid.blockNumber, rid.slot⟩ }

/-- `BTPage.SetFlag` on block `blk` of the file. -/
def setFlagF (file : List BTBlock) (blk : Int) (flag : Int) : List BTBlock :=
  file.set blk.toNat { getBlock file blk with flag := flag }

/-- `BTPage.Split` on a leaf block: `AppendNew(flag)` formats a fresh block
at the end of the file, `transferRecs` moves the records from `splitPos` on
into it (preserving order), and the new page's flag is set.  Returns the
new block's number. -/
def splitF (file : List BTBlock) (blk : Int) (splitPos : Nat) (flag : Int) :
    List BTBlock × Int :=
  let newIdx := file.length
  let b := getBlock file blk
  let file1 := (file ++ [(⟨flag, []⟩ : BTBlock)]).set blk.toNat
    { b with recs := b.recs.take splitPos }
  (file1.set newIdx ⟨flag, b.recs.drop splitPos⟩, (newIdx : Int))

/-- The cursor a `BTreeLeaf` holds: the leaf file, the current block, the
current slot and the search key. -/
structure LeafCursor where
  file : List BTBlock
  blk : Int
  currentSlot : Int
  searchKey : Int

namespace LeafCursor

def contents (c : LeafCursor) : BTBlock := getBlock c.file c.blk

/-- `BTreeLeaf.tryOverflow`: jump to the overflow block only when the current
block's first key equals the search key and the flag is non-negative. -/
def tryOverflow (c : LeafCursor) : Bool × LeafCursor :=
  if ¬ (c.searchKey = c.contents.GetDataVal 0) ∨ c.contents.flag < 0 then
    (false, c)
  else (true, { c with blk := c.contents.flag, currentSlot := 0 })

/-- `BTreeLeaf.Next`. -/
def next (c : LeafCursor) : Bool × LeafCursor :=
  let c1 := { c with currentSlot := c.currentSlot + 1 }
  if c1.currentSlot ≥ (c1.contents.recs.length : Int) then c1.tryOverflow
  else if c1.contents.GetDataVal c1.currentSlot = c1.searchKey then (true, c1)
  else c1.tryOverflow

/-- `BTreeLeaf.GetDataRid`. -/
def GetDataRid (c : LeafCursor) : RID := c.contents.GetDataRid c.currentSlot

end LeafCursor

/-- The position `BTreeLeaf.Insert`'s first while-loop reaches: advance from
`splitPos` past the records equal to the split key. -/
def advancePos (recs : List LeafRec) (splitPos : Nat) (key : Int) : Nat :=
  splitPos + ((recs.drop splitPos).takeWhile fun r => decide (r.dataval = key)).length

/-- The position the second while-loop reaches: walk `splitPos` back to the
first record equal to the split key. -/
def walkBackPos (recs : List LeafRec) (splitPos : Nat) (key : Int) : Nat :=
  splitPos - ((recs.take splitPos).reverse.takeWhile fun r => decide (r.dataval = key)).length

/-- `BTreeLeaf.Insert`: the special prepend case, the plain insert, the
all-keys-equal overflow split and the normal split.  Returns the updated
cursor (with the updated file) and the directory entry to promote, if any. -/
def leafInsert (P : BTreeParams) (c : LeafCursor) (datarid : RID) :
    LeafCursor × Option (Int × Int) :=
  if 0 ≤ c.contents.flag ∧ c.contents.GetDataVal 0 > c.searchKey then
    -- case 1: the new entry goes before all existing ones
    let firstVal := c.contents.GetDataVal 0
    let s := splitF c.file c.blk 0 c.contents.flag
    let f2 := setFlagF s.1 c.blk (-1)
    let f3 := insertLeafF f2 c.blk 0 c.searchKey datarid
    ({ c with file := f3, currentSlot := 0 }, some (firstVal, s.2))
  else
    let c1 := { c with currentSlot := c.currentSlot + 1 }
    let f1 := insertLeafF c.file c.blk c1.currentSlot.toNat c.searchKey datarid
    let b1 := getBlock f1 c.blk
    if ¬ b1.IsFull P then ({ c1 with file := f1 }, none)
    else
      let firstKey := b1.GetDataVal 0
      let lastKey := b1.GetDataVal ((b1.recs.length : Int) - 1)
      if lastKey = firstKey then
        -- case 2: all keys equal — move slots [1..] to a new overflow block
        let s := splitF f1 c.blk 1 b1.flag
        let f3 := setFlagF s.1 c.blk s.2
        ({ c1 with file := f3 }, none)
      else
        -- case 3: normal split
        let splitPos0 := b1.recs.length / 2
        let splitKey0 := b1.GetDataVal (splitPos0 : Int)
        let r :=
          if splitKey0 = firstKey then
            let p := advancePos b1.recs splitPos0 splitKey0
            (p, b1.GetDataVal (p : Int))
          else (walkBackPos b1.recs splitPos0 splitKey0, splitKey0)
        let s := splitF f1 c.blk r.1 (-1)
        ({ c1 with file := s.1 }, some (r.2, s.2))

/-- `BTPage.FindSlotBefore` on a directory block. -/
def DirBlock.FindSlotBefore (b : DirBlock) (key : Int) : Int :=
  ((b.recs.takeWhile fun r => decide (r.dataval < key)).length : Int) - 1

def DirBlock.GetDataVal (b : DirBlock) (slot : Int) : Int :=
  (b.recs.getD slot.toNat default).dataval

def DirBlock.GetChildNum (b : DirBlock) (slot : Int) : Int :=
  (b.recs.getD slot.toNat default).block

def DirBlock.IsFull (P : BTreeParams) (b : DirBlock) : Prop :=
  8 + ((b.recs.length : Int) + 1) * P.dirSlotSize ≥ P.blockSize

instance (P : BTreeParams) (b : DirBlock) : Decidable (b.IsFull P) := by
  rw [DirBlock.IsFull]
  infer_instance

/-- `BTreeDir.findChildBlock`: the largest slot with key ≤ the search key,
bumped to the next slot when that one's key equals the search key. -/
def DirBlock.findChildBlock (b : DirBlock) (searchKey : Int) : Int :=
  let slot := b.FindSlotBefore searchKey
  let slot2 :=
    if slot + 1 < (b.recs.length : Int) ∧ b.GetDataVal (slot + 1) = searchKey then
      slot + 1
    else slot
  b.GetChildNum slot2

/-- `BTreeDir.Search`: descend while the current block's flag (its level) is
positive; the descent consumes one level per step, so the starting level
bounds the number of steps (`fuel`). -/
def dirSearch (dirFile : List DirBlock) (key : Int) : Int → Nat → Int
  | blk, 0 => (getDir dirFile blk).findChildBlock key
  | blk, fuel + 1 =>
    let b := getDir dirFile blk
    let child := b.findChildBlock key
    if b.flag > 0 then dirSearch dirFile key child fuel else child

/-- `BTPage.InsertDir` on block `blk` of the directory file. -/
def insertDirF (file : List DirBlock) (blk : Int) (slot : Nat) (val : Int)
    (blocknum : Int) : List DirBlock :=
  let b := getDir file blk
  file.set blk.toNat { b with recs := b.recs.insertIdx slot ⟨blocknum, val⟩ }

/-- `BTPage.Split` on a directory block. -/
def dirSplitF (file : List DirBlock) (blk : Int) (splitPos : Nat) (flag : Int) :
    List DirBlock × Int :=
  let newIdx := file.length
  let b := getDir file blk
  let file1 := (file ++ [(⟨flag, []⟩ : DirBlock)]).set blk.toNat
    { b with recs := b.recs.take splitPos }
  (file1.set newIdx ⟨flag, b.recs.drop splitPos⟩, (newIdx : Int))

/-- `BTreeDir.insertEntry`: place the entry after `FindSlotBefore`, and split
at the median when the page is full, promoting the median key. -/
def dirInsertEntry (P : BTreeParams) (file : List DirBlock) (blk : Int)
    (e : Int × Int) : List DirBlock × Option (Int × Int) :=
  let b := getDir file blk
  let newSlot := (1 + b.FindSlotBefore e.1).toNat
  let f1 := insertDirF file blk newSlot e.1 e.2
  let b1 := getDir f1 blk
  if ¬ b1.IsFull P then (f1, none)
  else
    let level := b1.flag
    let splitPos := b1.recs.length / 2
    let splitVal := b1.GetDataVal (splitPos : Int)
    let s := dirSplitF f1 blk splitPos level
    (s.1, some (splitVal, s.2))

/-- `BTreeDir.Insert`: at level 0 insert here; otherwise recurse into the
child (one level per step, so the level bounds `fuel`) and insert the
promoted entry, if any, here. -/
def dirInsert (P : BTreeParams) (file : List DirBlock) (e : Int × Int) :
    Int → Nat → List DirBlock × Option (Int × Int)
  | blk, 0 => dirInsertEntry P file blk e
  | blk, fuel + 1 =>
    let b := getDir file blk
    if b.flag = 0 then dirInsertEntry P file blk e
    else
      let child := b.findChildBlock e.1
      let r := dirInsert P file e child fuel
      match r.2 with
      | some myentry => dirInsertEntry P r.1 blk myentry
      | none => (r.1, none)

/-- `BTreeDir.MakeNewRoot`: move the root's records to a new block, then
install the old root's entry and the promoted entry in block 0 and raise its
level. -/
def makeNewRoot (P : BTreeParams) (file : List DirBlock) (e : Int × Int) :
    List DirBlock :=
  let b := getDir file 0
  let firstVal := b.GetDataVal 0
  let level := b.flag
  let s := dirSplitF file 0 0 level
  let r1 := dirInsertEntry P s.1 0 (firstVal, s.2)
  let r2 := dirInsertEntry P r1.1 0 e
  setDirFlagF r2.1 0 (level + 1)
where
  /-- `BTPage.SetFlag` on a directory block. -/
  setDirFlagF (file : List DirBlock) (blk : Int) (flag : Int) : List DirBlock :=
    file.set blk.toNat { getDir file blk with flag := flag }

/-- The index state: the two files. -/
structure BTreeIdx where
  dirFile : List DirBlock
  leafFile : List BTBlock

/-- `NewBTreeIndex` on empty files: one leaf block formatted with flag −1,
and a root directory block at level 0 holding the single sentinel entry
`(minInt32 → block 0)`. -/
def NewBTreeIndexState : BTreeIdx :=
  ⟨[⟨0, [⟨0, minInt32⟩]⟩], [⟨-1, []⟩]⟩

/-- `BTreeIndex.BeforeFirst`: search the directory from the root for the
leaf block, and position the leaf cursor with `FindSlotBefore`. -/
def BTreeIdx.BeforeFirst (st : BTreeIdx) (key : Int) : LeafCursor :=
  let blkNum := dirSearch st.dirFile key 0 ((getDir st.dirFile 0).flag.toNat + 1)
  ⟨st.leafFile, blkNum, (getBlock st.leafFile blkNum).FindSlotBefore key, key⟩

/-- `BTreeIndex.Insert`: position, insert into the leaf, and propagate a
split entry through the directory, making a new root if needed. -/
def BTreeIdx.Insert (P : BTreeParams) (st : BTreeIdx) (key : Int) (rid : RID) :
    BTreeIdx :=
  let c := st.BeforeFirst key
  let r := leafInsert P c rid
  let st1 : BTreeIdx := ⟨st.dirFile, r.1.file⟩
  match r.2 with
  | none => st1
  | some e =>
    let rr := dirInsert P st1.dirFile e 0 ((getDir st1.dirFile 0).flag.toNat + 1)
    match rr.2 with
    | none => ⟨rr.1, st1.leafFile⟩
    | some e2 => ⟨makeNewRoot P rr.1 e2, st1.leafFile⟩

/-- Fold `Insert` over a list of RIDs with one key. -/
def BTreeIdx.InsertAll (P : BTreeParams) (key : Int) :
    BTreeIdx → List RID → BTreeIdx
  | st, [] => st
  | st, rid :: rest => BTreeIdx.InsertAll P key (st.Insert P key rid) rest

/-- Drive the scan: `next()` until it returns false, collecting
`GetDataRid()` at every true iteration. -/
def scanAux (c : LeafCursor) : Nat → List RID
  | 0 => []
  | fuel + 1 =>
    let r := c.next
    if r.1 then r.2.GetDataRid :: scanAux r.2 fuel else []

/-! ## Verification-side definitions

Predicates and spec-side readings used to state the theorems; these are not
translations of source functions.  `specUndoList` and `finishedIn` spell out
the recovery claim's own description of the scan (newest-to-oldest with a
`finished` set) declaratively, to be compared with `doRecover`. -/

/-- Fold `Transaction.SetIntLogged` over a list of `(block, offset, value)`
writes. -/
def Transaction.SetIntAll (tx : Int) : TxState → List (BlockID × Nat × Int) → TxState
  | st, [] => st
  | st, (b, off, v) :: rest =>
    Transaction.SetIntAll tx (Transaction.SetIntLogged tx st b off v) rest

/-- A page whose cells are genuine bytes, as every page reachable by the
`Page` codec is. -/
def WFPage (p : Page) : Prop := ∀ j, p.contents j < 256

/-- The records whose undo `doRecoverAux` invokes, in scan order. -/
def recoverUndone (finished : List Int) : List LogRecord → List LogRecord
  | [] => []
  | r :: rest =>
    if r.Op = CHECKPOINT then []
    else if r.Op = COMMIT ∨ r.Op = ROLLBACK then
      recoverUndone (r.TxNumber :: finished) rest
    else if r.TxNumber ∈ finished then recoverUndone finished rest
    else r :: recoverUndone finished rest

/-- The transaction numbers of the COMMIT and ROLLBACK records of a scanned
segment: the claim's `finished` set. -/
def finishedIn (recs : List LogRecord) : List Int :=
  (recs.filter fun r => decide (r.Op = COMMIT) || decide (r.Op = ROLLBACK)).map
    LogRecord.TxNumber

/-- The claim's description of the recovery scan, read declaratively: a
CHECKPOINT terminates the scan; a record that is neither COMMIT nor ROLLBACK
is undone exactly when its transaction has no COMMIT or ROLLBACK earlier in
the scan — `finishedIn scanned`, derived from the scanned prefix rather than
accumulated — nor in the starting `finished` set. -/
def specUndoListAux (finished : List Int) (scanned : List LogRecord) :
    List LogRecord → List LogRecord
  | [] => []
  | r :: rest =>
    if r.Op = CHECKPOINT then []
    else if ¬(r.Op = COMMIT ∨ r.Op = ROLLBACK) ∧
        r.TxNumber ∉ finished ++ finishedIn scanned then
      r :: specUndoListAux finished (scanned ++ [r]) rest
    else specUndoListAux finished (scanned ++ [r]) rest

def specUndoList (finished : List Int) (recs : List LogRecord) : List LogRecord :=
  specUndoListAux finished [] recs

/-- The records of one log block, as laid out on the page: `rs` lists them
newest first; the first starts at `pos` (the boundary) and each is the
4-byte length prefix plus payload, tiling the page up to the block size. -/
def tiles (p : Page) (bs : Nat) : Nat → List (List Nat) → Prop
  | pos, [] => pos = bs
  | pos, r :: rest =>
    pos + 4 + r.length ≤ bs ∧ p.getBytes pos = r ∧
      tiles p bs (pos + 4 + r.length) rest

/-- A flushed log block: its boundary int is a valid offset and the block's
records tile it from there.  Blocks below the current one always hold at
least one record. -/
def pageTilesFull (p : Page) (bs : Nat) (rs : List (List Nat)) : Prop :=
  ∃ bd : Nat, p.getInt 0 = (bd : Int) ∧ 4 ≤ bd ∧ bd ≤ bs ∧
    tiles p bs bd rs ∧ rs ≠ []

/-- The log blocks below block `n`, newest block first: block `n-1` holds
`rss.head`, …, block `0` holds `rss.getLast`. -/
def lowTiles (fb : List Page) (bs : Nat) : Nat → List (List (List Nat)) → Prop
  | 0, rss => rss = []
  | n + 1, rss =>
    ∃ rs rss', rss = rs :: rss' ∧
      pageTilesFull (LogManager.fmRead fb bs n) bs rs ∧ lowTiles fb bs n rss'

/-- The log manager's state invariant: `rs` are the in-memory page's records
(newest first), `rss` the records of the flushed blocks below it. -/
def LMInv (lm : LogManager) (rs : List (List Nat))
    (rss : List (List (List Nat))) : Prop :=
  8 ≤ lm.blockSize ∧ lm.blockSize < 2 ^ 31 ∧
  lm.fileBlocks.length = lm.currentBlockNum + 1 ∧
  (∃ bd : Nat, lm.logpage.getInt 0 = (bd : Int) ∧ 4 ≤ bd ∧ bd ≤ lm.blockSize ∧
    tiles lm.logpage lm.blockSize bd rs) ∧
  lowTiles lm.fileBlocks lm.blockSize lm.currentBlockNum rss

/-- The RID a leaf record points to. -/
def ridOfRec (r : LeafRec) : RID := ⟨r.block, r.id⟩

/-- The RIDs of one block's records, in slot order. -/
def ridsOf (b : BTBlock) : List RID := b.recs.map ridOfRec

/-- An overflow chain: from `blk`, every block holds only key `k`, is
nonempty, and either ends (flag < 0) or continues at the positive flag.
`rids` are the chain's RIDs in scan order. -/
inductive chain (k : Int) (file : List BTBlock) : Int → List RID → Prop where
  | last : ∀ blk : Int, 0 ≤ blk → blk.toNat < file.length →
      (getBlock file blk).flag < 0 →
      (getBlock file blk).recs ≠ [] →
      (∀ r ∈ (getBlock file blk).recs, r.dataval = k) →
      chain k file blk (ridsOf (getBlock file blk))
  | more : ∀ (blk : Int) (rids : List RID), 0 ≤ blk → blk.toNat < file.length →
      0 < (getBlock file blk).flag →
      (getBlock file blk).recs ≠ [] →
      (∀ r ∈ (getBlock file blk).recs, r.dataval = k) →
      chain k file ((getBlock file blk).flag) rids →
      chain k file blk (ridsOf (getBlock file blk) ++ rids)

/-- The leaf-file invariant of the one-key workload: the head block 0 either
is still the empty formatted leaf, or heads a chain representing a
permutation of the inserted RIDs. -/
def TopInv (k : Int) (file : List BTBlock) (inserted : List RID) : Prop :=
  1 ≤ file.length ∧
  (((getBlock file 0).flag < 0 ∧ (getBlock file 0).recs = [] ∧ inserted = []) ∨
    ∃ rep, chain k file 0 rep ∧ rep.Perm inserted)

/-- The index invariant of the one-key workload: the directory still holds
only the initial root, and the leaf file satisfies `TopInv`. -/
def IdxInv (k : Int) (st : BTreeIdx) (inserted : List RID) : Prop :=
  st.dirFile = [⟨0, [⟨0, minInt32⟩]⟩] ∧ TopInv k st.leafFile inserted

/-- Concrete names used by witnesses and counterexamples. -/
def testFile : String := "test.db"

def fldA : String := "a"

def fldB : String := "b"

/-! ********** end of definitions marker: all embedding definitions go above, all lemmas and claim theorems below ********** -/

/-! ### Page byte-level lemmas -/

namespace Page

@[simp] theorem size_writeByte (p : Page) (i v : Nat) :
    (p.writeByte i v).size = p.size := rfl

theorem size_writeBytes (p : Page) (i : Nat) (b : List Nat) :
    (p.writeBytes i b).size = p.size := by
  induction b generalizing p i with
  | nil => rfl
  | cons v vs ih => simp [writeBytes, ih]

@[simp] theorem size_setInt (p : Page) (offset : Nat) (n : Int) :
    (p.setInt offset n).size = p.size := by
  simp [setInt, size_writeBytes]

@[simp] theorem size_setBytes (p : Page) (offset : Nat) (b : List Nat) :
    (p.setBytes offset b).size = p.size := by
  simp [setBytes, size_writeBytes]

theorem contents_writeByte (p : Page) (i v j : Nat) :
    (p.writeByte i v).contents j = if j = i then v % 256 else p.contents j := rfl

/-- Reading outside the written range is unchanged. -/
theorem contents_writeBytes_lt (p : Page) (i : Nat) (b : List Nat) (j : Nat)
    (h : j < i) : (p.writeBytes i b).contents j = p.contents j := by
  induction b generalizing p i with
  | nil => rfl
  | cons v vs ih =>
    rw [writeBytes, ih _ _ (Nat.lt_succ_of_lt h), contents_writeByte]
    rw [if_neg (Nat.ne_of_lt h)]

theorem contents_writeBytes_ge (p : Page) (i : Nat) (b : List Nat) (j : Nat)
    (h : i + b.length ≤ j) : (p.writeBytes i b).contents j = p.contents j := by
  induction b generalizing p i with
  | nil => rfl
  | cons v vs ih =>
    have hlen : i + 1 + vs.length ≤ j := by simp at h; omega
    rw [writeBytes, ih _ _ hlen, contents_writeByte, if_neg]
    simp at h; omega

/-- Reading inside the written range returns the written byte. -/
theorem contents_writeBytes_get (p : Page) (i : Nat) (b : List Nat) (k : Nat)
    (hk : k < b.length) :
    (p.writeBytes i b).contents (i + k) = b.getD k 0 % 256 := by
  induction b generalizing p i k with
  | nil => simp at hk
  | cons v vs ih =>
    match k with
    | 0 =>
      rw [writeBytes, contents_writeBytes_lt _ _ _ _ (by omega),
        contents_writeByte, if_pos (by omega)]
      rfl
    | k + 1 =>
      rw [writeBytes]
      have := ih (p.writeByte i v) (i + 1) k (by simpa using hk)
      rw [show i + (k + 1) = i + 1 + k by omega, this]
      rfl

end Page

theorem encBE4_mem_lt (u : Nat) : ∀ x ∈ Page.encBE4 u, x < 256 := by
  intro x hx
  simp only [Page.encBE4, List.mem_cons, List.not_mem_nil, or_false] at hx
  rcases hx with rfl | rfl | rfl | rfl <;> omega

@[simp] theorem encBE4_length (u : Nat) : (Page.encBE4 u).length = 4 := rfl

namespace Page

theorem contents_setInt_frame (p : Page) (off : Nat) (n : Int) (j : Nat)
    (h : j < off ∨ off + 4 ≤ j) : (p.setInt off n).contents j = p.contents j := by
  rcases h with h | h
  · exact contents_writeBytes_lt _ _ _ _ h
  · exact contents_writeBytes_ge _ _ _ _ (by simpa using h)

theorem contents_setBytes_frame (p : Page) (off : Nat) (b : List Nat) (j : Nat)
    (h : j < off ∨ off + 4 + b.length ≤ j) :
    (p.setBytes off b).contents j = p.contents j := by
  rcases h with h | h
  · rw [setBytes, contents_writeBytes_lt _ _ _ _ (by omega),
      contents_setInt_frame _ _ _ _ (Or.inl h)]
  · rw [setBytes, contents_writeBytes_ge _ _ _ _ (by omega),
      contents_setInt_frame _ _ _ _ (Or.inr (by omega))]

theorem decodeU32_writeBytes_encBE4 (p : Page) (off u : Nat) :
    decodeU32 (p.writeBytes off (encBE4 u)) off = u % 2 ^ 32 := by
  have h0 := contents_writeBytes_get p off (encBE4 u) 0 (by simp)
  have h1 := contents_writeBytes_get p off (encBE4 u) 1 (by simp)
  have h2 := contents_writeBytes_get p off (encBE4 u) 2 (by simp)
  have h3 := contents_writeBytes_get p off (encBE4 u) 3 (by simp)
  rw [Nat.add_zero] at h0
  rw [decodeU32, h0, h1, h2, h3]
  simp only [encBE4, List.getD_cons_zero, List.getD_cons_succ]
  omega

theorem u32ofInt_lt (n : Int) : u32ofInt n < 2 ^ 32 := by
  rw [u32ofInt]; omega

theorem i32ofNat_u32ofInt (v : Int) (h1 : -2 ^ 31 ≤ v) (h2 : v < 2 ^ 31) :
    i32ofNat (u32ofInt v) = v := by
  rw [u32ofInt, i32ofNat]
  split <;> omega

/-- `setInt` then `getInt` at the same offset recovers any `int32` value. -/
theorem getInt_setInt (p : Page) (off : Nat) (v : Int)
    (h1 : -2 ^ 31 ≤ v) (h2 : v < 2 ^ 31) :
    (p.setInt off v).getInt off = v := by
  rw [getInt, setInt, decodeU32_writeBytes_encBE4,
    Nat.mod_eq_of_lt (u32ofInt_lt v), i32ofNat_u32ofInt v h1 h2]

/-- `setBytes` then `getBytes` at the same offset recovers the payload. -/
theorem getBytes_setBytes (p : Page) (off : Nat) (b : List Nat)
    (hb : ∀ x ∈ b, x < 256) (hlen : b.length < 2 ^ 32) :
    (p.setBytes off b).getBytes off = b := by
  have hdec : decodeU32 (p.setBytes off b) off = b.length := by
    have hfr : ∀ j, j < off + 4 →
        (p.setBytes off b).contents j = (p.setInt off (b.length : Int)).contents j := by
      intro j hj
      exact contents_writeBytes_lt _ _ _ _ hj
    rw [decodeU32, hfr _ (by omega), hfr _ (by omega), hfr _ (by omega),
      hfr _ (by omega), ← decodeU32, setInt, decodeU32_writeBytes_encBE4]
    rw [u32ofInt]
    omega
  rw [getBytes, hdec]
  apply List.ext_getElem
  · simp
  · intro i hi hib
    simp only [List.getElem_map, List.getElem_range]
    rw [setBytes]
    have := contents_writeBytes_get (p.setInt off (b.length : Int)) (off + 4) b i
      (by simpa using hib)
    rw [this, List.getD_eq_getElem _ _ hib,
      Nat.mod_eq_of_lt (hb _ (List.getElem_mem hib))]

end Page

/-- C9: Page codec round-trip.  For any page, offset, `int32` value and byte
string whose encodings fit in the page, `setInt`/`getInt` round-trips exactly,
`setString`/`getString` round-trips byte-identically (4-byte big-endian length
prefix plus payload), and bytes outside the written region are untouched. -/
theorem C9_page_codec_roundtrip (p : Page) (offset : Nat) (v : Int) (s : List Nat)
    (hv1 : -2 ^ 31 ≤ v) (hv2 : v < 2 ^ 31) (hvfit : offset + 4 ≤ p.size)
    (hs : ∀ x ∈ s, x < 256) (hsfit : offset + 4 + s.length ≤ p.size)
    (hslen : s.length < 2 ^ 32) :
    (p.setInt offset v).getInt offset = v ∧
    (p.setString offset s).getString offset = s ∧
    (∀ j, j < offset ∨ offset + 4 + s.length ≤ j →
      (p.setString offset s).contents j = p.contents j) ∧
    (∀ j, j < offset ∨ offset + 4 ≤ j →
      (p.setInt offset v).contents j = p.contents j) := by
  refine ⟨Page.getInt_setInt p offset v hv1 hv2,
    Page.getBytes_setBytes p offset s hs hslen,
    fun j hj => Page.contents_setBytes_frame p offset s j hj,
    fun j hj => Page.contents_setInt_frame p offset v j hj⟩

/-- Witness for C9 at `blockSize = 400`, `offset = 80`, `v = 12345`,
`s = "hi"` (bytes `[104, 105]`). -/
theorem C9_page_codec_roundtrip_witness :
    ((Page.new 400).setInt 80 12345).getInt 80 = 12345 ∧
    ((Page.new 400).setString 80 [104, 105]).getString 80 = [104, 105] := by
  have h := C9_page_codec_roundtrip (Page.new 400) 80 12345 [104, 105]
    (by decide) (by decide) (by decide) (by decide) (by decide) (by decide)
  exact ⟨h.1, h.2.1⟩

/-! ## C10: Buffer.SetModified and unlogged writes -/

/-- C10: `SetModified` always records the modifying transaction and updates
the stored LSN only when the given LSN is non-negative; hence a logged write
(recording LSN `L ≥ 0`) followed by an unlogged write (which passes `-1`)
leaves the frame dirty with the LSN of the logged write, so the WAL
obligation is not weakened. -/
theorem C10_setModified_unlogged_keeps_lsn (b : Buffer) (tx L : Int)
    (htx : 0 ≤ tx) (hL : 0 ≤ L) :
    (∀ (x : Buffer) (t l : Int), (x.SetModified t l).txnum = t) ∧
    (∀ (x : Buffer) (t l : Int), 0 ≤ l → (x.SetModified t l).lsn = l) ∧
    (∀ (x : Buffer) (t l : Int), l < 0 → (x.SetModified t l).lsn = x.lsn) ∧
    ((b.SetModified tx L).SetModified tx (-1)).txnum = tx ∧
    0 ≤ ((b.SetModified tx L).SetModified tx (-1)).txnum ∧
    ((b.SetModified tx L).SetModified tx (-1)).lsn = L := by
  refine ⟨fun x t l => rfl, fun x t l hl => by simp [Buffer.SetModified, hl],
    fun x t l hl => by simp [Buffer.SetModified]; omega,
    by simp [Buffer.SetModified], ?_, ?_⟩
  · simpa [Buffer.SetModified] using htx
  · simp [Buffer.SetModified]
    omega

/-- Witness for C10: a fresh frame, transaction 1, logged LSN 5, then an
unlogged write. -/
theorem C10_setModified_witness :
    (((Buffer.NewBuffer 400).SetModified 1 5).SetModified 1 (-1)).txnum = 1 ∧
    (((Buffer.NewBuffer 400).SetModified 1 5).SetModified 1 (-1)).lsn = 5 := by
  have h := C10_setModified_unlogged_keeps_lsn (Buffer.NewBuffer 400) 1 5
    (by decide) (by decide)
  exact ⟨h.2.2.2.1, h.2.2.2.2.2⟩

/-! ## C5: WAL ordering on buffer flush -/

/-- The disk events `FlushAll` emits: for each frame of the transaction that
is dirty, the log-flush request followed by the page write. -/
theorem flushAll_events (pool : List Buffer) (txNum : Int) :
    (BufferManager.FlushAll pool txNum).2 =
      (pool.filter fun x => decide (x.ModifyingTx = txNum) && decide (0 ≤ x.txnum)).flatMap
        fun x => [DiskEvent.logFlush x.lsn, DiskEvent.pageWrite x.block] := by
  induction pool with
  | nil => rfl
  | cons b rest ih =>
    by_cases hb : b.ModifyingTx = txNum
    · by_cases hd : (0 : Int) ≤ b.txnum
      · simp [BufferManager.FlushAll, Buffer.Flush, hb, hd, ih]
      · simp [BufferManager.FlushAll, Buffer.Flush, hb, hd, ih]
    · simp [BufferManager.FlushAll, hb, ih]

/-- C5: whenever a dirty frame (`modifyingTx ≥ 0`) is written — on explicit
flush, on `FlushAll`, or when the frame is reassigned — the buffer first
requests the log flush up to its `lastLsn`, then writes the page, then clears
`modifyingTx`; the page write never precedes the log flush, and a log flush
request with a negative LSN is a no-op on the log manager. -/
theorem C5_wal_flush_order (b : Buffer) (disk : BlockID → Page) (blk : BlockID)
    (pool : List Buffer) (txNum : Int) (hdirty : 0 ≤ b.txnum) :
    b.Flush.2 = [DiskEvent.logFlush b.lsn, DiskEvent.pageWrite b.block] ∧
    b.Flush.1.txnum = -1 ∧
    (b.AssignToBlock disk blk).2 =
      [DiskEvent.logFlush b.lsn, DiskEvent.pageWrite b.block,
        DiskEvent.pageRead blk] ∧
    (BufferManager.FlushAll pool txNum).2 =
      (pool.filter fun x => decide (x.ModifyingTx = txNum) && decide (0 ≤ x.txnum)).flatMap
        (fun x => [DiskEvent.logFlush x.lsn, DiskEvent.pageWrite x.block]) ∧
    (∀ (lm : LogManager) (lsn : Int), lsn < 0 → lm.Flush lsn = lm) := by
  refine ⟨by simp [Buffer.Flush, hdirty], by simp [Buffer.Flush, hdirty],
    by simp [Buffer.AssignToBlock, Buffer.Flush, hdirty],
    flushAll_events pool txNum, fun lm lsn hlsn => ?_⟩
  rw [LogManager.Flush, if_neg]
  omega

/-- Witness for C5: a dirty frame modified by transaction 1 at LSN 5. -/
theorem C5_wal_flush_order_witness :
    ((Buffer.NewBuffer 400).SetModified 1 5).Flush.2 =
      [DiskEvent.logFlush 5, DiskEvent.pageWrite none] ∧
    ((Buffer.NewBuffer 400).SetModified 1 5).Flush.1.txnum = -1 := by
  have h := C5_wal_flush_order ((Buffer.NewBuffer 400).SetModified 1 5)
    (fun _ => Page.new 400) ⟨testFile, 1⟩ [] 1 (by decide)
  exact ⟨h.1, h.2.1⟩

/-! ## C7: Layout offsets and slot size -/

/-- What the layout fold computes from any starting map and position: the
final position adds every field's `lengthInBytes`; names outside the list
keep their old entry; with distinct names, the i-th field's entry is the
start position plus the sizes of the fields before it. -/
theorem layout_foldl_spec (schema : Schema) (fields : List String)
    (m0 : String → Option Int) (pos0 : Int) :
    (fields.foldl
      (fun (acc : (String → Option Int) × Int) (fieldName : String) =>
        ((fun n => if n = fieldName then some acc.2 else acc.1 n),
          acc.2 + lengthInBytes schema fieldName))
      (m0, pos0)).2 = pos0 + (fields.map (lengthInBytes schema)).sum ∧
    (∀ f, f ∉ fields →
      (fields.foldl
        (fun (acc : (String → Option Int) × Int) (fieldName : String) =>
          ((fun n => if n = fieldName then some acc.2 else acc.1 n),
            acc.2 + lengthInBytes schema fieldName))
        (m0, pos0)).1 f = m0 f) ∧
    (fields.Nodup → ∀ i (h : i < fields.length),
      (fields.foldl
        (fun (acc : (String → Option Int) × Int) (fieldName : String) =>
          ((fun n => if n = fieldName then some acc.2 else acc.1 n),
            acc.2 + lengthInBytes schema fieldName))
        (m0, pos0)).1 (fields.get ⟨i, h⟩) =
        some (pos0 + ((fields.take i).map (lengthInBytes schema)).sum)) := by
  induction fields generalizing m0 pos0 with
  | nil =>
    refine ⟨by simp, fun f _ => rfl, fun _ i h => absurd h (by simp)⟩
  | cons f0 fs ih =>
    obtain ⟨ihs, ihm, iho⟩ := ih
      (fun n => if n = f0 then some pos0 else m0 n)
      (pos0 + lengthInBytes schema f0)
    refine ⟨by simpa [add_assoc] using ihs, ?_, ?_⟩
    · intro f hf
      simp only [List.mem_cons, not_or] at hf
      rw [List.foldl_cons, ihm f hf.2]
      simp [hf.1]
    · intro hnd i h
      rcases List.nodup_cons.mp hnd with ⟨hf0, hnd'⟩
      match i with
      | 0 =>
        rw [List.foldl_cons]
        have := ihm f0 hf0
        simpa using this
      | i + 1 =>
        rw [List.foldl_cons]
        have := iho hnd' i (by simpa using h)
        simpa [add_assoc] using this

/-- C7 fails on the code: for the one-field schema `(a : INT)` the layout's
slot size is 16, not `4 + 4`, and the field's offset is 8, not 4 — the flag
and each INT field get `unsafe.Sizeof(int(0))` = 8 bytes on 64-bit builds. -/
theorem C7_layout_counterexample :
    ¬ (((NewLayout (Schema.new.AddIntField fldA)).SlotSize = 4 + 4) ∧
      (NewLayout (Schema.new.AddIntField fldA)).Offset fldA = 4) := by
  decide

/-- C7 amended: `Layout(schema)` computes
`slotSize = 8 + Σ bytesPerField` with `bytesPerField(INT) = 8` and
`bytesPerField(VARCHAR(n)) = 4 + n` (8 = `unsafe.Sizeof(int(0))` on the
64-bit builds this repository targets), and assigns each field the
cumulative byte offset starting at 8, in schema field order. -/
theorem C7_layout_amended (schema : Schema) (hnd : schema.fields.Nodup) :
    (NewLayout schema).SlotSize =
      sizeofGoInt + (schema.fields.map (lengthInBytes schema)).sum ∧
    sizeofGoInt = 8 ∧
    (∀ f, schema.DataType f = INTEGER → lengthInBytes schema f = 8) ∧
    (∀ f n, schema.info f = some ⟨VARCHAR, n⟩ → lengthInBytes schema f = 4 + n) ∧
    ∀ i (h : i < schema.fields.length),
      (NewLayout schema).Offset (schema.fields.get ⟨i, h⟩) =
        sizeofGoInt + ((schema.fields.take i).map (lengthInBytes schema)).sum := by
  obtain ⟨hs, _, ho⟩ := layout_foldl_spec schema schema.fields (fun _ => none)
    sizeofGoInt
  refine ⟨hs, rfl, ?_, ?_, ?_⟩
  · intro f hf
    rw [lengthInBytes, if_pos hf]; rfl
  · intro f n hf
    have hdt : schema.DataType f = VARCHAR := by
      simp [Schema.DataType, hf]
    rw [lengthInBytes, if_neg (by rw [hdt]; decide)]
    simp [Schema.Length, hf, MaxLength]
  · intro i h
    have hoi := ho hnd i h
    simp only [NewLayout, Layout.Offset] at hoi ⊢
    rw [hoi]

/-- Witness for C7's amended statement: schema `(a : INT, b : VARCHAR(9))`
gives slot size `8 + 8 + 13 = 29`, offset 8 for `a` and 16 for `b`. -/
theorem C7_layout_amended_witness :
    (NewLayout ((Schema.new.AddIntField fldA).AddStringField fldB 9)).SlotSize = 29 ∧
    (NewLayout ((Schema.new.AddIntField fldA).AddStringField fldB 9)).Offset fldA = 8 ∧
    (NewLayout ((Schema.new.AddIntField fldA).AddStringField fldB 9)).Offset fldB = 16 := by
  have h := C7_layout_amended ((Schema.new.AddIntField fldA).AddStringField fldB 9)
    (by decide)
  refine ⟨?_, ?_, ?_⟩
  · rw [h.1]; decide
  · have := h.2.2.2.2 0 (by decide)
    simpa using this
  · have := h.2.2.2.2 1 (by decide)
    simpa using this

/-! ## C4: lock upgrade -/

/-- C4 fails on the code: from a free table, `SLock` leaves the caller as the
block's only (shared) holder, yet `XLock` then returns a timeout and leaves
the entry at 1 instead of granting the upgrade and setting it to -1. -/
theorem C4_xlock_upgrade_counterexample :
    (LockTable.SLock (fun _ => 0) ⟨testFile, 1⟩).1 = LockResult.ok ∧
    (LockTable.SLock (fun _ => 0) ⟨testFile, 1⟩).2 ⟨testFile, 1⟩ = 1 ∧
    (LockTable.XLock ((LockTable.SLock (fun _ => 0) ⟨testFile, 1⟩).2)
      ⟨testFile, 1⟩).1 = LockResult.timeout ∧
    ¬ (LockTable.XLock ((LockTable.SLock (fun _ => 0) ⟨testFile, 1⟩).2)
      ⟨testFile, 1⟩).2 ⟨testFile, 1⟩ = -1 := by
  refine ⟨rfl, by simp [LockTable.SLock, LockTable.hasXLock, LockTable.getLockVal],
    ?_, ?_⟩ <;>
    simp [LockTable.SLock, LockTable.XLock, LockTable.hasXLock, LockTable.getLockVal]

/-- C4 amended: `XLock` never waits.  If any lock entry exists on the block at
call time — the caller's own shared lock included — it returns `LockTimeout`
at once and leaves the table unchanged; it succeeds and sets the entry to -1
exactly when the block carries no lock at all. -/
theorem C4_xlock_amended (locks : BlockID → Int) (blk : BlockID)
    (hsole : locks blk = 1) :
    (LockTable.XLock locks blk).1 = LockResult.timeout ∧
    (LockTable.XLock locks blk).2 = locks ∧
    (∀ (l : BlockID → Int) (b : BlockID), l b ≠ 0 →
      LockTable.XLock l b = (LockResult.timeout, l)) ∧
    (∀ (l : BlockID → Int) (b : BlockID), l b = 0 →
      (LockTable.XLock l b).1 = LockResult.ok ∧ (LockTable.XLock l b).2 b = -1) := by
  refine ⟨?_, ?_, fun l b hb => ?_, fun l b hb => ?_⟩
  · rw [LockTable.XLock, if_pos (by simp [LockTable.getLockVal, hsole])]
  · rw [LockTable.XLock, if_pos (by simp [LockTable.getLockVal, hsole])]
  · rw [LockTable.XLock, if_pos (by simpa [LockTable.getLockVal] using hb)]
  · rw [LockTable.XLock, if_neg (by simpa [LockTable.getLockVal] using hb)]
    simp

/-- Witness for C4's amended statement: the table holding exactly one shared
lock on the block. -/
theorem C4_xlock_amended_witness :
    (LockTable.XLock (fun x => if x = ⟨testFile, 1⟩ then 1 else 0)
      ⟨testFile, 1⟩).1 = LockResult.timeout := by
  have h := C4_xlock_amended (fun x => if x = ⟨testFile, 1⟩ then 1 else 0)
    ⟨testFile, 1⟩ (by decide)
  exact h.1

/-! ## C3: the lock table is keyed by pointer, not by value -/

/-- C3 fails on the code: with the part_005 table (map keyed by `*BlockID`)
and every ConcurrencyManager call passing `&block`, T1's exclusive lock and
T2's shared-lock request on *structurally equal* BlockIDs use distinct
pointers, so T2 is granted immediately instead of observing the exclusive
entry.  (`NewTransaction` moreover passes a nil lock table, so transactions
do not even share one instance.) -/
theorem C3_pointer_keyed_locktable_divergence :
    -- T1 takes its exclusive lock through a fresh pointer to (test.db, 1)
    (((PtrLockTable.mk (fun _ => 0) (fun _ => none) 0).allocPtr
        ⟨testFile, 1⟩).2.XLockQ
      (((PtrLockTable.mk (fun _ => 0) (fun _ => none) 0).allocPtr
        ⟨testFile, 1⟩).1)).1 = LockResult.ok ∧
    -- its entry is exclusive (-1) under pointer 0
    ((((PtrLockTable.mk (fun _ => 0) (fun _ => none) 0).allocPtr
        ⟨testFile, 1⟩).2.XLockQ 0).2.locks 0 = -1) ∧
    -- T2's pointer 1 holds a structurally equal BlockID, yet is a distinct key
    ((((((PtrLockTable.mk (fun _ => 0) (fun _ => none) 0).allocPtr
        ⟨testFile, 1⟩).2.XLockQ 0).2.allocPtr ⟨testFile, 1⟩).2.heap 1) =
      some ⟨testFile, 1⟩) ∧
    ((((((PtrLockTable.mk (fun _ => 0) (fun _ => none) 0).allocPtr
        ⟨testFile, 1⟩).2.XLockQ 0).2.allocPtr ⟨testFile, 1⟩).2.heap 0) =
      some ⟨testFile, 1⟩) ∧
    -- T2's SLock on that fresh pointer is granted at once
    ((((((PtrLockTable.mk (fun _ => 0) (fun _ => none) 0).allocPtr
        ⟨testFile, 1⟩).2.XLockQ 0).2.allocPtr ⟨testFile, 1⟩).2.SLockQ 1).1 =
      LockResult.ok) ∧
    -- while T1's exclusive entry still stands under pointer 0
    ((((((PtrLockTable.mk (fun _ => 0) (fun _ => none) 0).allocPtr
        ⟨testFile, 1⟩).2.XLockQ 0).2.allocPtr ⟨testFile, 1⟩).2.SLockQ 1).2.locks 0 =
      -1) := by
  refine ⟨?_, ?_, ?_, ?_, ?_, ?_⟩ <;>
    simp [PtrLockTable.allocPtr, PtrLockTable.XLockQ, PtrLockTable.SLockQ,
      PtrLockTable.getLockVal]

/-! ## C2: rollback restores pre-images -/

theorem Page.ext_contents (p q : Page) (hs : p.size = q.size)
    (hc : ∀ j, p.contents j = q.contents j) : p = q := by
  cases p
  cases q
  simp only [Page.mk.injEq]
  exact ⟨hs, funext hc⟩

theorem TxState.ext_parts (a b : TxState) (h1 : a.store = b.store)
    (h2 : a.log = b.log) : a = b := by
  cases a
  cases b
  simp_all

theorem WFPage_new (n : Nat) : WFPage (Page.new n) := fun j => by
  simp [Page.new]

theorem WFPage_writeByte (p : Page) (i v : Nat) (h : WFPage p) :
    WFPage (p.writeByte i v) := by
  intro j
  rw [Page.contents_writeByte]
  split
  · omega
  · exact h j

theorem WFPage_writeBytes (p : Page) (i : Nat) (b : List Nat) (h : WFPage p) :
    WFPage (p.writeBytes i b) := by
  induction b generalizing p i with
  | nil => exact h
  | cons v vs ih => exact ih _ _ (WFPage_writeByte p i v h)

theorem WFPage_setInt (p : Page) (off : Nat) (n : Int) (h : WFPage p) :
    WFPage (p.setInt off n) :=
  WFPage_writeBytes _ _ _ h

theorem WFPage_setBytes (p : Page) (off : Nat) (b : List Nat) (h : WFPage p) :
    WFPage (p.setBytes off b) :=
  WFPage_writeBytes _ _ _ (WFPage_setInt _ _ _ h)

theorem u32ofInt_i32ofNat (u : Nat) (h : u < 2 ^ 32) :
    Page.u32ofInt (Page.i32ofNat u) = u := by
  rw [Page.i32ofNat, Page.u32ofInt]
  split <;> omega

theorem decodeU32_lt (p : Page) (off : Nat) (h : WFPage p) :
    Page.decodeU32 p off < 2 ^ 32 := by
  have h0 := h off
  have h1 := h (off + 1)
  have h2 := h (off + 2)
  have h3 := h (off + 3)
  rw [Page.decodeU32]
  omega

theorem encBE4_decodeU32 (p : Page) (off : Nat) (h : WFPage p) :
    Page.encBE4 (Page.decodeU32 p off) =
      [p.contents off, p.contents (off + 1), p.contents (off + 2),
        p.contents (off + 3)] := by
  have h0 := h off
  have h1 := h (off + 1)
  have h2 := h (off + 2)
  have h3 := h (off + 3)
  rw [Page.encBE4, Page.decodeU32]
  simp only [List.cons.injEq, and_true]
  refine ⟨by omega, by omega, by omega, by omega⟩

/-- Writing a value at an offset and then writing back the int32 previously
read there restores the page byte-for-byte. -/
theorem setInt_setInt_restore (p : Page) (off : Nat) (v : Int) (h : WFPage p) :
    (p.setInt off v).setInt off (p.getInt off) = p := by
  apply Page.ext_contents
  · simp
  · intro j
    by_cases hj : off ≤ j ∧ j < off + 4
    · obtain ⟨k, hk, rfl⟩ : ∃ k, k < 4 ∧ j = off + k := ⟨j - off, by omega, by omega⟩
      have hrw : (p.setInt off v).setInt off (p.getInt off) =
          (p.setInt off v).writeBytes off (Page.encBE4 (Page.decodeU32 p off)) := by
        rw [Page.setInt, Page.getInt, u32ofInt_i32ofNat _ (decodeU32_lt p off h)]
      rw [hrw, Page.contents_writeBytes_get _ _ _ k (by simp [hk]),
        encBE4_decodeU32 p off h]
      interval_cases k <;>
        simp only [List.getD_cons_zero, List.getD_cons_succ] <;>
        exact Nat.mod_eq_of_lt (h _)
    · have hor : j < off ∨ off + 4 ≤ j := by omega
      rw [Page.contents_setInt_frame _ _ _ _ hor,
        Page.contents_setInt_frame _ _ _ _ hor]

/-- The rollback scan passes over a segment containing no START record of
this transaction and continues behind it. -/
theorem doRollbackAux_append (tx : Int) (l1 l2 : List LogRecord)
    (h : ∀ r ∈ l1, ¬(r.TxNumber = tx ∧ r.Op = START)) (st : TxState) :
    doRollbackAux tx (l1 ++ l2) st = doRollbackAux tx l2 (doRollbackAux tx l1 st) := by
  induction l1 generalizing st with
  | nil => rfl
  | cons r rest ih =>
    have hr := h r (List.mem_cons_self r rest)
    have hrest : ∀ x ∈ rest, ¬(x.TxNumber = tx ∧ x.Op = START) :=
      fun x hx => h x (List.mem_cons_of_mem r hx)
    by_cases htx : r.TxNumber = tx
    · have hop : ¬ r.Op = START := fun hs => hr ⟨htx, hs⟩
      rw [List.cons_append, doRollbackAux, if_pos htx, if_neg hop,
        doRollbackAux, if_pos htx, if_neg hop, ih hrest]
    · rw [List.cons_append, doRollbackAux, if_neg htx,
        doRollbackAux, if_neg htx, ih hrest]

/-- `Undo` leaves the log alone. -/
theorem LogRecord.log_Undo (r : LogRecord) (st : TxState) :
    (r.Undo st).log = st.log := by
  cases r <;> rfl

/-- Rolling back the records a sequence of logged `setInt` writes produced
restores the store the sequence started from. -/
theorem setIntAll_rollback (tx : Int) (ops : List (BlockID × Nat × Int)) :
    ∀ st : TxState, (∀ b, WFPage (st.store b)) →
    ∃ newRecs : List LogRecord,
      (Transaction.SetIntAll tx st ops).log = newRecs ++ st.log ∧
      (∀ r ∈ newRecs, r.TxNumber = tx ∧ r.Op = SETINT) ∧
      doRollbackAux tx newRecs (Transaction.SetIntAll tx st ops) =
        { Transaction.SetIntAll tx st ops with store := st.store } ∧
      (∀ b, WFPage ((Transaction.SetIntAll tx st ops).store b)) := by
  induction ops with
  | nil =>
    intro st hWF
    exact ⟨[], rfl, by simp, rfl, hWF⟩
  | cons op rest ih =>
    intro st hWF
    obtain ⟨b, off, v⟩ := op
    have hWF1 : ∀ x, WFPage ((Transaction.SetIntLogged tx st b off v).store x) := by
      intro x
      simp only [Transaction.SetIntLogged, TxState.writeInt]
      split
      · exact WFPage_setInt _ _ _ (hWF b)
      · exact hWF x
    obtain ⟨nr, hlog, hall, hroll, hwfr⟩ := ih (Transaction.SetIntLogged tx st b off v) hWF1
    have hstep : Transaction.SetIntAll tx st ((b, off, v) :: rest) =
        Transaction.SetIntAll tx (Transaction.SetIntLogged tx st b off v) rest := rfl
    refine ⟨nr ++ [LogRecord.setIntRecord tx b off ((st.store b).getInt off)],
      ?_, ?_, ?_, by rw [hstep]; exact hwfr⟩
    · rw [hstep, hlog]
      simp [Transaction.SetIntLogged, TxState.writeInt]
    · intro r hr
      rcases List.mem_append.mp hr with hr | hr
      · exact hall r hr
      · rcases List.mem_singleton.mp hr with rfl
        exact ⟨rfl, rfl⟩
    · rw [hstep, doRollbackAux_append tx nr _ ?hseg]
      case hseg =>
        intro r hr hand
        have := (hall r hr).2
        rw [hand.2] at this
        exact absurd this (by decide)
      rw [hroll, doRollbackAux]
      simp only [LogRecord.TxNumber, LogRecord.Op]
      rw [if_pos trivial, if_neg (by decide), doRollbackAux]
      apply TxState.ext_parts
      · funext x
        simp only [LogRecord.Undo, TxState.writeInt, Transaction.SetIntLogged]
        by_cases hx : x = b
        · subst hx
          simp only [if_pos rfl]
          exact setInt_setInt_restore (st.store x) off v (hWF x)
        · simp only [if_neg hx]
      · rw [LogRecord.log_Undo]

/-- C2: a transaction that performs logged `setInt` writes and then rolls
back gets every captured pre-image written back at its recorded block and
offset, with no new log record, so a subsequent read of each written offset
returns the value the transaction saw before its writes. -/
theorem C2_rollback_restores_preimages (tx : Int) (st0 : TxState)
    (ops : List (BlockID × Nat × Int)) (hWF : ∀ b, WFPage (st0.store b)) :
    (doRollback tx (Transaction.SetIntAll tx
      { st0 with log := LogRecord.startRecord tx :: st0.log } ops)).store =
        st0.store ∧
    (doRollback tx (Transaction.SetIntAll tx
      { st0 with log := LogRecord.startRecord tx :: st0.log } ops)).log =
      (Transaction.SetIntAll tx
        { st0 with log := LogRecord.startRecord tx :: st0.log } ops).log ∧
    ∀ b off, ((doRollback tx (Transaction.SetIntAll tx
        { st0 with log := LogRecord.startRecord tx :: st0.log } ops)).store b).getInt
        off = ((st0.store b).getInt off) := by
  obtain ⟨nr, hlog, hall, hroll, _⟩ := setIntAll_rollback tx ops
    { st0 with log := LogRecord.startRecord tx :: st0.log } hWF
  have hmain : doRollback tx (Transaction.SetIntAll tx
      { st0 with log := LogRecord.startRecord tx :: st0.log } ops) =
      { Transaction.SetIntAll tx
        { st0 with log := LogRecord.startRecord tx :: st0.log } ops with
          store := st0.store } := by
    rw [doRollback, hlog, doRollbackAux_append tx nr _ ?hseg]
    case hseg =>
      intro r hr hand
      have := (hall r hr).2
      rw [hand.2] at this
      exact absurd this (by decide)
    rw [hroll, doRollbackAux]
    simp only [LogRecord.TxNumber, LogRecord.Op]
    rw [if_pos trivial, if_pos trivial]
  rw [hmain]
  exact ⟨rfl, rfl, fun b off => rfl⟩

/-- Witness for C2: the spec's S5 scenario — transaction 1 writes 12345 at
offset 80 of block (test.db, 0) with logging, rolls back, and the read
returns the pre-image 0. -/
theorem C2_rollback_witness :
    ((doRollback 1 (Transaction.SetIntAll 1
      { store := fun _ => Page.new 400,
        log := LogRecord.startRecord 1 :: ([] : List LogRecord) }
      [(⟨testFile, 0⟩, 80, 12345)])).store ⟨testFile, 0⟩).getInt 80 = 0 := by
  have h := C2_rollback_restores_preimages 1
    ⟨fun _ => Page.new 400, []⟩ [(⟨testFile, 0⟩, 80, 12345)]
    (fun _ => WFPage_new 400)
  have h3 := h.2.2 ⟨testFile, 0⟩ 80
  rw [h3]
  decide

/-! ## C1: undo-only recovery -/

/-- The recovery loop applies, in scan order, exactly the undos of the
records `recoverUndone` collects. -/
theorem doRecoverAux_eq_foldl (recs : List LogRecord) :
    ∀ (fin : List Int) (st : TxState),
    doRecoverAux fin recs st =
      (recoverUndone fin recs).foldl (fun s r => r.Undo s) st := by
  induction recs with
  | nil => intro fin st; rfl
  | cons r rest ih =>
    intro fin st
    rw [doRecoverAux, recoverUndone]
    by_cases h1 : r.Op = CHECKPOINT
    · simp [h1]
    · by_cases h2 : r.Op = COMMIT ∨ r.Op = ROLLBACK
      · simp [h1, h2, ih]
      · by_cases h3 : r.TxNumber ∈ fin
        · simp [h1, h2, h3, ih]
        · simp [h1, h2, h3, ih]

/-- The scan terminates at the first CHECKPOINT record: everything behind it
is never examined. -/
theorem doRecoverAux_stops_at_checkpoint (pre : List LogRecord) :
    ∀ (fin : List Int) (post : List LogRecord) (st : TxState),
    (∀ r ∈ pre, r.Op ≠ CHECKPOINT) →
    doRecoverAux fin (pre ++ LogRecord.checkpointRecord :: post) st =
      doRecoverAux fin pre st := by
  induction pre with
  | nil =>
    intro fin post st _
    rw [List.nil_append, doRecoverAux, doRecoverAux, if_pos (show
      LogRecord.checkpointRecord.Op = CHECKPOINT from rfl)]
  | cons r rest ih =>
    intro fin post st hpre
    have hr := hpre r (List.mem_cons_self r rest)
    have hrest : ∀ x ∈ rest, x.Op ≠ CHECKPOINT :=
      fun x hx => hpre x (List.mem_cons_of_mem r hx)
    rw [List.cons_append, doRecoverAux, doRecoverAux, if_neg hr, if_neg hr]
    by_cases h2 : r.Op = COMMIT ∨ r.Op = ROLLBACK
    · rw [if_pos h2, if_pos h2, ih _ _ _ hrest]
    · rw [if_neg h2, if_neg h2]
      by_cases h3 : r.TxNumber ∈ fin
      · rw [if_pos h3, if_pos h3, ih _ _ _ hrest]
      · rw [if_neg h3, if_neg h3, ih _ _ _ hrest]

theorem finishedIn_append (a b : List LogRecord) :
    finishedIn (a ++ b) = finishedIn a ++ finishedIn b := by
  simp [finishedIn, List.filter_append]

theorem finishedIn_singleton_of (r : LogRecord)
    (h : r.Op = COMMIT ∨ r.Op = ROLLBACK) : finishedIn [r] = [r.TxNumber] := by
  rcases h with h | h <;> simp [finishedIn, List.filter, h]

theorem finishedIn_singleton_not (r : LogRecord)
    (h : ¬(r.Op = COMMIT ∨ r.Op = ROLLBACK)) : finishedIn [r] = [] := by
  push_neg at h
  simp [finishedIn, List.filter, h.1, h.2]

/-- The loop's `finished` accumulator always equals the COMMIT/ROLLBACK
transactions of the scanned prefix (plus the starting set), so the loop's
undo list is the declarative one. -/
theorem recoverUndone_eq_specAux (recs : List LogRecord) :
    ∀ (fin0 : List Int) (scanned : List LogRecord) (finAcc : List Int),
    (∀ x : Int, x ∈ finAcc ↔ x ∈ fin0 ++ finishedIn scanned) →
    recoverUndone finAcc recs = specUndoListAux fin0 scanned recs := by
  induction recs with
  | nil => intro fin0 scanned finAcc _; rfl
  | cons r rest ih =>
    intro fin0 scanned finAcc hAcc
    by_cases h1 : r.Op = CHECKPOINT
    · rw [recoverUndone, if_pos h1, specUndoListAux, if_pos h1]
    · rw [recoverUndone, if_neg h1, specUndoListAux, if_neg h1]
      by_cases h2 : r.Op = COMMIT ∨ r.Op = ROLLBACK
      · rw [if_pos h2, if_neg fun hand => hand.1 h2]
        apply ih
        intro x
        rw [List.mem_cons, hAcc x, finishedIn_append,
          finishedIn_singleton_of r h2]
        simp [or_comm, or_assoc, or_left_comm]
      · rw [if_neg h2]
        have hmem : r.TxNumber ∈ finAcc ↔
            r.TxNumber ∈ fin0 ++ finishedIn scanned := hAcc r.TxNumber
        have hAcc' : ∀ x : Int, x ∈ finAcc ↔
            x ∈ fin0 ++ finishedIn (scanned ++ [r]) := by
          intro x
          rw [hAcc x, finishedIn_append, finishedIn_singleton_not r h2]
          simp
        by_cases h3 : r.TxNumber ∈ finAcc
        · rw [if_pos h3, if_neg fun hand => hand.2 (hmem.mp h3)]
          exact ih fin0 _ finAcc hAcc'
        · rw [if_neg h3, if_pos ⟨h2, fun hx => h3 (hmem.mpr hx)⟩]
          rw [ih fin0 _ finAcc hAcc']

/-- C1: `recover` is the undo-only algorithm the claim describes.  The scan
walks the log newest-to-oldest and stops at the first CHECKPOINT; it applies,
in scan order, the undo of exactly those records that are neither COMMIT nor
ROLLBACK and whose transaction has no COMMIT or ROLLBACK earlier in the scan
(the `finished` set); and the driver then flushes the recovering
transaction's buffers and appends and flushes a CHECKPOINT record. -/
theorem C1_recover_undo_only (st : TxState) (txnum : Int) :
    doRecover st = (specUndoList [] st.log).foldl (fun s r => r.Undo s) st ∧
    (∀ (pre post : List LogRecord) (st2 : TxState),
      (∀ r ∈ pre, r.Op ≠ CHECKPOINT) →
      doRecoverAux [] (pre ++ LogRecord.checkpointRecord :: post) st2 =
        doRecoverAux [] pre st2) ∧
    (RecoveryManager.Recover txnum st).1.log =
      LogRecord.checkpointRecord :: (doRecover st).log ∧
    (RecoveryManager.Recover txnum st).1.store = (doRecover st).store ∧
    (RecoveryManager.Recover txnum st).2 =
      [RecoveryAction.flushAll txnum, RecoveryAction.appendCheckpoint,
        RecoveryAction.logFlush] := by
  refine ⟨?_, ?_, rfl, rfl, rfl⟩
  · rw [doRecover, doRecoverAux_eq_foldl, specUndoList,
      recoverUndone_eq_specAux st.log [] [] [] (by simp [finishedIn])]
  · intro pre post st2 hpre
    exact doRecoverAux_stops_at_checkpoint pre [] post st2 hpre

/-! ## C6: log iteration order -/

theorem Page.getBytes_agree (p q : Page) (pos : Nat)
    (h : ∀ j, pos ≤ j → j < pos + 4 + Page.decodeU32 p pos →
      q.contents j = p.contents j) :
    q.getBytes pos = p.getBytes pos := by
  have hdec : Page.decodeU32 q pos = Page.decodeU32 p pos := by
    rw [Page.decodeU32, Page.decodeU32, h pos (Nat.le_refl pos) (by omega),
      h (pos + 1) (by omega) (by omega), h (pos + 2) (by omega) (by omega),
      h (pos + 3) (by omega) (by omega)]
  rw [Page.getBytes, Page.getBytes, hdec]
  apply List.map_congr_left
  intro i hi
  rw [List.mem_range] at hi
  exact h (pos + 4 + i) (by omega) (by omega)

theorem tiles_le (p : Page) (bs pos : Nat) (rs : List (List Nat))
    (h : tiles p bs pos rs) : pos ≤ bs := by
  cases rs with
  | nil => exact Nat.le_of_eq h
  | cons r rest => have := h.1; omega

theorem tiles_agree (p q : Page) (bs : Nat) (rs : List (List Nat)) :
    ∀ pos, tiles p bs pos rs →
    (∀ j, pos ≤ j → j < bs → q.contents j = p.contents j) →
    tiles q bs pos rs := by
  induction rs with
  | nil => intro pos ht _; exact ht
  | cons r rest ih =>
    intro pos ht hag
    obtain ⟨h1, h2, h3⟩ := ht
    have hdecp : Page.decodeU32 p pos = r.length := by
      have := congrArg List.length h2
      simpa [Page.getBytes] using this
    refine ⟨h1, ?_, ih _ h3 (fun j hj1 hj2 => hag j (by omega) hj2)⟩
    rw [Page.getBytes_agree p q pos ?agr]
    · exact h2
    case agr =>
      intro j hj1 hj2
      rw [hdecp] at hj2
      exact hag j hj1 (by omega)

theorem getInt_setInt_ofNat (p : Page) (off n : Nat) (h : n < 2 ^ 31) :
    (p.setInt off (n : Int)).getInt off = (n : Int) :=
  Page.getInt_setInt p off (n : Int) (by omega) (by exact_mod_cast h)

theorem fmRead_set_ne (fb : List Page) (bs n i : Nat) (p : Page) (h : i ≠ n) :
    LogManager.fmRead (fb.set n p) bs i = LogManager.fmRead fb bs i := by
  rw [LogManager.fmRead, LogManager.fmRead, List.getD_eq_getElem?_getD,
    List.getD_eq_getElem?_getD, List.getElem?_set_ne (Ne.symm h)]

theorem fmRead_append_lt (fb fb2 : List Page) (bs i : Nat) (h : i < fb.length) :
    LogManager.fmRead (fb ++ fb2) bs i = LogManager.fmRead fb bs i := by
  rw [LogManager.fmRead, LogManager.fmRead, List.getD_eq_getElem?_getD,
    List.getD_eq_getElem?_getD, List.getElem?_append_left h]

theorem fmRead_set_self (fb : List Page) (bs n : Nat) (p : Page)
    (h : n < fb.length) : LogManager.fmRead (fb.set n p) bs n = p := by
  rw [LogManager.fmRead, List.getD_eq_getElem?_getD,
    List.getElem?_set_self (by omega)]
  rfl

/-- `lowTiles` only reads blocks below `n`. -/
theorem lowTiles_congr (bs : Nat) (rss : List (List (List Nat))) :
    ∀ (n : Nat) (fb fb' : List Page), lowTiles fb bs n rss →
    (∀ i, i < n → LogManager.fmRead fb' bs i = LogManager.fmRead fb bs i) →
    lowTiles fb' bs n rss := by
  induction rss with
  | nil =>
    intro n fb fb' hl hag
    cases n with
    | zero => exact hl
    | succ m => obtain ⟨rs, rss', habs, _⟩ := hl; exact absurd habs (by simp)
  | cons rs0 rss' ih =>
    intro n fb fb' hl hag
    cases n with
    | zero => exact hl
    | succ m =>
      obtain ⟨rs, rssT, heq, hfull, hlow⟩ := hl
      refine ⟨rs, rssT, heq, ?_, ?_⟩
      · rw [hag m (Nat.lt_succ_self m)]
        exact hfull
      · cases heq
        exact ih m fb fb' hlow fun i hi => hag i (Nat.lt_succ_of_lt hi)

/-- Writing a record below the boundary and updating the boundary int makes
the page tile with the new record in front. -/
theorem append_write_tiles (lp0 : Page) (bs bd : Nat) (rs : List (List Nat))
    (r : List Nat) (hbs31 : bs < 2 ^ 31) (hbd2 : bd ≤ bs)
    (htiles : tiles lp0 bs bd rs) (hfit : r.length + 8 ≤ bd)
    (hrb : ∀ x ∈ r, x < 256) :
    ((lp0.setBytes (bd - r.length - 4) r).setInt 0
        ((bd : Int) - ((r.length : Int) + 4))).getInt 0 =
      ((bd - r.length - 4 : Nat) : Int) ∧
    tiles ((lp0.setBytes (bd - r.length - 4) r).setInt 0
      ((bd : Int) - ((r.length : Int) + 4))) bs (bd - r.length - 4) (r :: rs) := by
  have hcast : (bd : Int) - ((r.length : Int) + 4) = ((bd - r.length - 4 : Nat) : Int) := by
    omega
  have hg0 : (lp0.setBytes (bd - r.length - 4) r).getBytes (bd - r.length - 4) = r :=
    Page.getBytes_setBytes lp0 (bd - r.length - 4) r hrb (by omega)
  have hframe : ∀ j, 4 ≤ j →
      ((lp0.setBytes (bd - r.length - 4) r).setInt 0
        ((bd : Int) - ((r.length : Int) + 4))).contents j =
      (lp0.setBytes (bd - r.length - 4) r).contents j := by
    intro j hj
    exact Page.contents_setInt_frame _ 0 _ j (Or.inr hj)
  refine ⟨by rw [hcast, getInt_setInt_ofNat _ _ _ (by omega)], ?_, ?_, ?_⟩
  · omega
  · have hdec : Page.decodeU32 (lp0.setBytes (bd - r.length - 4) r)
        (bd - r.length - 4) = r.length := by
      have := congrArg List.length hg0
      simpa [Page.getBytes] using this
    rw [Page.getBytes_agree _ _ _ ?agr]
    · exact hg0
    case agr =>
      intro j hj1 hj2
      exact hframe j (by omega)
  · have hb : bd - r.length - 4 + 4 + r.length = bd := by omega
    rw [hb]
    apply tiles_agree lp0 _ bs rs bd htiles
    intro j hj1 hj2
    rw [hframe j (by omega),
      Page.contents_setBytes_frame _ _ _ _ (Or.inr (by omega))]

/-- `Append` preserves the log invariant and prepends the record to the
represented sequence (newest first). -/
theorem Append_inv (lm : LogManager) (rs : List (List Nat))
    (rss : List (List (List Nat))) (r : List Nat) (hinv : LMInv lm rs rss)
    (hlen : r.length ≤ lm.blockSize - 8) (hrb : ∀ x ∈ r, x < 256) :
    ∃ rs' rss', LMInv (lm.Append r).1 rs' rss' ∧
      rs' ++ rss'.flatten = r :: (rs ++ rss.flatten) := by
  obtain ⟨hbs8, hbs31, hflen, ⟨bd, hbd0, hbd4, hbdle, htl⟩, hlow⟩ := hinv
  by_cases hsw : lm.logpage.getInt 0 - ((r.length : Int) + 4) < 4
  · -- the record does not fit: flush, switch to a fresh block, then write
    have hbdlt : bd < r.length + 8 := by
      rw [hbd0] at hsw
      omega
    have hfitbs : r.length + 8 ≤ lm.blockSize := by omega
    have hne : rs ≠ [] := by
      intro habs
      subst habs
      have : bd = lm.blockSize := htl
      omega
    have hlen1 : (lm.fileBlocks.set lm.currentBlockNum lm.logpage).length =
        lm.currentBlockNum + 1 := by
      simp [hflen]
    have hApp : (lm.Append r).1 =
        { lm with
          fileBlocks :=
            ((lm.fileBlocks.set lm.currentBlockNum lm.logpage ++
              [Page.new lm.blockSize]).set (lm.currentBlockNum + 1)
              (lm.logpage.setInt 0 (lm.blockSize : Int))),
          currentBlockNum := lm.currentBlockNum + 1,
          lastSavedLSN := lm.latestLSN,
          latestLSN := lm.latestLSN + 1,
          logpage :=
            (((lm.logpage.setInt 0 (lm.blockSize : Int)).setBytes
                (lm.blockSize - r.length - 4) r).setInt 0
              ((lm.blockSize : Int) - ((r.length : Int) + 4))) } := by
      simp only [LogManager.Append, LogManager.flushPage, LogManager.appendNewBlock,
        if_pos hsw, hlen1,
        getInt_setInt_ofNat lm.logpage 0 lm.blockSize (by omega)]
      have htn : ((lm.blockSize : Int) - ((r.length : Int) + 4)).toNat =
          lm.blockSize - r.length - 4 := by omega
      rw [htn]
    obtain ⟨hbound, htiles2⟩ := append_write_tiles
      (lm.logpage.setInt 0 (lm.blockSize : Int)) lm.blockSize lm.blockSize []
      r hbs31 (Nat.le_refl _) rfl hfitbs hrb
    refine ⟨[r], rs :: rss, ⟨?_, ?_, ?_, ?_, ?_⟩, by simp⟩
    · rw [hApp]; exact hbs8
    · rw [hApp]; exact hbs31
    · rw [hApp]
      simp [hflen]
    · rw [hApp]
      refine ⟨lm.blockSize - r.length - 4, hbound, ?_, ?_, htiles2⟩
      · dsimp only
        omega
      · dsimp only
        omega
    · rw [hApp]
      refine ⟨rs, rss, rfl, ?_, ?_⟩
      · have hr1 : LogManager.fmRead
            ((lm.fileBlocks.set lm.currentBlockNum lm.logpage ++
              [Page.new lm.blockSize]).set (lm.currentBlockNum + 1)
              (lm.logpage.setInt 0 (lm.blockSize : Int))) lm.blockSize
            lm.currentBlockNum = lm.logpage := by
          rw [fmRead_set_ne _ _ _ _ _ (by omega),
            fmRead_append_lt _ _ _ _ (by omega),
            fmRead_set_self _ _ _ _ (by omega)]
        rw [hr1]
        exact ⟨bd, hbd0, hbd4, hbdle, htl, hne⟩
      · apply lowTiles_congr _ _ _ lm.fileBlocks _ hlow
        intro i hi
        rw [fmRead_set_ne _ _ _ _ _ (by omega),
          fmRead_append_lt _ _ _ _ (by omega),
          fmRead_set_ne _ _ _ _ _ (by omega)]
  · -- the record fits below the current boundary
    have hfit : r.length + 8 ≤ bd := by
      rw [hbd0] at hsw
      omega
    have hApp : (lm.Append r).1 =
        { lm with
          logpage := ((lm.logpage.setBytes (bd - r.length - 4) r).setInt 0
            ((bd : Int) - ((r.length : Int) + 4))),
          latestLSN := lm.latestLSN + 1 } := by
      have hsw2 : ¬((bd : Int) - ((r.length : Int) + 4) < 4) := by
        rw [hbd0] at hsw
        exact hsw
      have htn : ((bd : Int) - ((r.length : Int) + 4)).toNat =
          bd - r.length - 4 := by omega
      simp only [LogManager.Append]
      rw [if_neg hsw, hbd0, htn]
    obtain ⟨hbound, htiles2⟩ := append_write_tiles lm.logpage lm.blockSize bd rs
      r hbs31 hbdle htl hfit hrb
    refine ⟨r :: rs, rss, ⟨?_, ?_, ?_, ?_, ?_⟩, by simp⟩
    · rw [hApp]; exact hbs8
    · rw [hApp]; exact hbs31
    · rw [hApp]; exact hflen
    · rw [hApp]
      refine ⟨bd - r.length - 4, hbound, ?_, ?_, htiles2⟩
      · dsimp only
        omega
      · dsimp only
        omega
    · rw [hApp]
      exact hlow

theorem blockSize_Append (lm : LogManager) (r : List Nat) :
    (lm.Append r).1.blockSize = lm.blockSize := by
  simp only [LogManager.Append, LogManager.flushPage, LogManager.appendNewBlock]
  split <;> rfl

/-- A fresh log manager on an empty file satisfies the invariant with no
records. -/
theorem new_inv (bs : Nat) (h8 : 8 ≤ bs) (h31 : bs < 2 ^ 31) :
    LMInv (LogManager.new bs) [] [] := by
  refine ⟨h8, h31, rfl, ⟨bs, ?_, by omega, Nat.le_refl bs, rfl⟩, rfl⟩
  exact getInt_setInt_ofNat (Page.new bs) 0 bs h31

/-- Appending a list of records (oldest first) yields the invariant with the
records in reverse order. -/
theorem appendAll_inv (recs : List (List Nat)) :
    ∀ (lm : LogManager) (rs : List (List Nat)) (rss : List (List (List Nat))),
    LMInv lm rs rss →
    (∀ r ∈ recs, r.length ≤ lm.blockSize - 8 ∧ ∀ x ∈ r, x < 256) →
    ∃ rs' rss', LMInv (LogManager.appendAll lm recs) rs' rss' ∧
      rs' ++ rss'.flatten = recs.reverse ++ (rs ++ rss.flatten) := by
  induction recs with
  | nil =>
    intro lm rs rss hinv _
    exact ⟨rs, rss, hinv, by simp⟩
  | cons r rest ih =>
    intro lm rs rss hinv hr
    obtain ⟨rs1, rss1, hinv1, hlist1⟩ := Append_inv lm rs rss r hinv
      (hr r (List.mem_cons_self r rest)).1 (hr r (List.mem_cons_self r rest)).2
    obtain ⟨rs2, rss2, hinv2, hlist2⟩ := ih (lm.Append r).1 rs1 rss1 hinv1
      (fun x hx => by
        rw [blockSize_Append]
        exact hr x (List.mem_cons_of_mem r hx))
    refine ⟨rs2, rss2, hinv2, ?_⟩
    rw [hlist2, hlist1]
    simp

/-- Draining the iterator yields the current block's records then each lower
block's, newest first throughout. -/
theorem collect_tiles (bs : Nat) (fb : List Page) :
    ∀ (fuel n pos bdry : Nat) (p : Page) (rs : List (List Nat))
      (rss : List (List (List Nat))),
    tiles p bs pos rs → lowTiles fb bs n rss →
    (rs ++ rss.flatten).length ≤ fuel →
    LogIterator.collect ⟨bs, fb, n, p, pos, bdry⟩ fuel = rs ++ rss.flatten := by
  intro fuel
  induction fuel with
  | zero =>
    intro n pos bdry p rs rss _ _ hfuel
    have : rs ++ rss.flatten = [] := List.length_eq_zero.mp (by omega)
    rw [this]
    rfl
  | succ fuel ih =>
    intro n pos bdry p rs rss htiles hlow hfuel
    cases rs with
    | cons r rs1 =>
      obtain ⟨hle, hget, htl1⟩ := htiles
      have hlt : pos < bs := by omega
      rw [LogIterator.collect, if_pos ?hn]
      case hn =>
        simp [LogIterator.HasNext]
        omega
      have hnext : (LogIterator.next ⟨bs, fb, n, p, pos, bdry⟩) =
          (r, ⟨bs, fb, n, p, pos + 4 + r.length, bdry⟩) := by
        rw [LogIterator.next]
        simp only [if_neg (by omega : ¬ pos = bs)]
        rw [hget]
      rw [hnext]
      dsimp only
      simp only [List.cons_append]
      rw [ih n (pos + 4 + r.length) bdry p rs1 rss htl1 hlow (by
        simp at hfuel ⊢
        omega)]
    | nil =>
      have hpos : pos = bs := htiles
      cases n with
      | zero =>
        have hrss : rss = [] := hlow
        subst hrss
        rw [LogIterator.collect, if_neg (by simp [LogIterator.HasNext, hpos])]
        rfl
      | succ m =>
        obtain ⟨rsb, rss1, rfl, ⟨bd1, hbd1, hbd14, hbd1le, htb, hneb⟩, hlow1⟩ := hlow
        rw [LogIterator.collect, if_pos (by simp [LogIterator.HasNext])]
        cases rsb with
        | nil => exact absurd rfl hneb
        | cons r1 rs1 =>
          obtain ⟨hle1, hget1, htl1⟩ := htb
          have hmove : LogIterator.moveToBlock ⟨bs, fb, m + 1, p, pos, bdry⟩ m =
              ⟨bs, fb, m, LogManager.fmRead fb bs m, bd1, bd1⟩ := by
            rw [LogIterator.moveToBlock]
            simp only [hbd1, Int.toNat_ofNat]
          have hnext : (LogIterator.next ⟨bs, fb, m + 1, p, pos, bdry⟩) =
              (r1, ⟨bs, fb, m, LogManager.fmRead fb bs m, bd1 + 4 + r1.length,
                bd1⟩) := by
            rw [LogIterator.next]
            simp only [if_pos hpos, Nat.add_sub_cancel, hmove]
            rw [hget1]
          rw [hnext]
          dsimp only
          have := ih m (bd1 + 4 + r1.length) bd1 (LogManager.fmRead fb bs m)
            rs1 rss1 htl1 hlow1 (by
              simp at hfuel ⊢
              omega)
          rw [this]
          simp

/-- Requesting an iterator flushes the page and then drains the whole log. -/
theorem Iterator_collect (lm : LogManager) (rs : List (List Nat))
    (rss : List (List (List Nat))) (hinv : LMInv lm rs rss) (fuel : Nat)
    (hfuel : (rs ++ rss.flatten).length ≤ fuel) :
    LogIterator.collect lm.Iterator fuel = rs ++ rss.flatten := by
  obtain ⟨hbs8, hbs31, hflen, ⟨bd, hbd0, hbd4, hbdle, htl⟩, hlow⟩ := hinv
  have hit : lm.Iterator = ⟨lm.blockSize,
      lm.fileBlocks.set lm.currentBlockNum lm.logpage, lm.currentBlockNum,
      lm.logpage, bd, bd⟩ := by
    rw [LogManager.Iterator, LogManager.flushPage, LogIterator.new]
    simp only [fmRead_set_self lm.fileBlocks lm.blockSize lm.currentBlockNum
      lm.logpage (by omega), hbd0, Int.toNat_ofNat]
  rw [hit]
  apply collect_tiles lm.blockSize _ fuel lm.currentBlockNum bd bd lm.logpage
    rs rss htl ?_ hfuel
  apply lowTiles_congr _ _ _ lm.fileBlocks _ hlow
  intro i hi
  exact fmRead_set_ne _ _ _ _ _ (by omega)

/-- C6: after any sequence of appends of block-fitting records, the iterator
(which flushes first) yields exactly the records in reverse insertion order,
walking each block forward from its boundary and moving to the previous
block when one is exhausted. -/
theorem C6_log_iterator_reverse_order (bs : Nat) (recs : List (List Nat))
    (h8 : 8 ≤ bs) (h31 : bs < 2 ^ 31)
    (hrec : ∀ r ∈ recs, r.length ≤ bs - 8 ∧ ∀ x ∈ r, x < 256) :
    (∀ lm : LogManager, lm.Iterator.fileBlocks = lm.flushPage.fileBlocks) ∧
    ∀ fuel, recs.length ≤ fuel →
    LogIterator.collect
      ((LogManager.appendAll (LogManager.new bs) recs).Iterator) fuel =
      recs.reverse := by
  obtain ⟨rs, rss, hinv, hlist⟩ := appendAll_inv recs (LogManager.new bs) [] []
    (new_inv bs h8 h31) (fun r hr => hrec r hr)
  refine ⟨fun lm => rfl, fun fuel hfuel => ?_⟩
  have hlen : (rs ++ rss.flatten).length = recs.length := by
    rw [hlist]
    simp
  rw [Iterator_collect _ rs rss hinv fuel (by omega), hlist]
  simp

/-- Witness for C6: three records appended to a 16-byte-block log come back
newest first. -/
theorem C6_log_iterator_witness :
    LogIterator.collect
      ((LogManager.appendAll (LogManager.new 16) [[1], [2], [3]]).Iterator) 3 =
      [[3], [2], [1]] := by
  have h := C6_log_iterator_reverse_order 16 [[1], [2], [3]] (by decide)
    (by decide) (by decide)
  exact h.2 3 (by decide)

/-! ## C8: B-tree duplicate keys -/

theorem getBlock_set_self (file : List BTBlock) (i : Int) (b : BTBlock)
    (h0 : 0 ≤ i) (hlt : i.toNat < file.length) :
    getBlock (file.set i.toNat b) i = b := by
  rw [getBlock, List.getD_eq_getElem?_getD, List.getElem?_set_self (by simpa)]
  rfl

theorem getBlock_set_ne (file : List BTBlock) (n : Nat) (j : Int) (b : BTBlock)
    (h : j.toNat ≠ n) :
    getBlock (file.set n b) j = getBlock file j := by
  rw [getBlock, getBlock, List.getD_eq_getElem?_getD, List.getD_eq_getElem?_getD,
    List.getElem?_set_ne (Ne.symm h)]

theorem getBlock_append (file l : List BTBlock) (j : Int)
    (h : j.toNat < file.length) :
    getBlock (file ++ l) j = getBlock file j := by
  rw [getBlock, getBlock, List.getD_eq_getElem?_getD, List.getD_eq_getElem?_getD,
    List.getElem?_append_left h]

theorem length_insertLeafF (file : List BTBlock) (blk : Int) (slot : Nat)
    (val : Int) (rid : RID) :
    (insertLeafF file blk slot val rid).length = file.length := by
  simp [insertLeafF]

theorem length_setFlagF (file : List BTBlock) (blk : Int) (flag : Int) :
    (setFlagF file blk flag).length = file.length := by
  simp [setFlagF]

theorem length_splitF (file : List BTBlock) (blk : Int) (splitPos : Nat)
    (flag : Int) :
    (splitF file blk splitPos flag).1.length = file.length + 1 := by
  simp [splitF]

/-- A chain is unaffected by file changes outside its blocks; every block of
a chain starting at a positive index stays at a positive index. -/
theorem chain_congr (k : Int) (file file' : List BTBlock) (blk : Int)
    (rids : List RID) (hch : chain k file blk rids)
    (hlen : file.length ≤ file'.length)
    (hag : ∀ j : Int, 1 ≤ j → j.toNat < file.length →
      getBlock file' j = getBlock file j)
    (hpos : 1 ≤ blk) : chain k file' blk rids := by
  induction hch with
  | last b h0 hl hf hn ha =>
    rw [← hag b hpos hl] at hf hn ha ⊢
    exact chain.last b h0 (by omega) hf hn ha
  | more b rids h0 hl hf hn ha hch ih =>
    have hb := hag b hpos hl
    have hflagpos : 1 ≤ (getBlock file b).flag := by omega
    rw [← hb] at hf hn ha ⊢
    exact chain.more b rids h0 (by omega) hf hn ha (by rw [hb]; exact ih hflagpos)

theorem chain_ne_nil (k : Int) (file : List BTBlock) (blk : Int)
    (rids : List RID) (hch : chain k file blk rids) :
    (getBlock file blk).recs ≠ [] := by
  cases hch with
  | last b h0 hl hf hn ha => exact hn
  | more b rids h0 hl hf hn ha hch => exact hn

theorem chain_all_k (k : Int) (file : List BTBlock) (blk : Int)
    (rids : List RID) (hch : chain k file blk rids) :
    ∀ r ∈ (getBlock file blk).recs, r.dataval = k := by
  cases hch with
  | last b h0 hl hf hn ha => exact ha
  | more b rids h0 hl hf hn ha hch => exact ha

theorem GetDataRid_zero (b : BTBlock) :
    b.GetDataRid 0 = ridOfRec (b.recs.getD 0 default) := rfl

theorem chain_head_cons (k : Int) (file : List BTBlock) (blk : Int)
    (rids : List RID) (hch : chain k file blk rids) :
    rids = (getBlock file blk).GetDataRid 0 :: rids.tail := by
  cases hch with
  | last b h0 hl hf hn ha =>
    obtain ⟨r, rs, hrr⟩ := List.exists_cons_of_ne_nil hn
    rw [GetDataRid_zero, ridsOf, hrr]
    simp
  | more b rids h0 hl hf hn ha hch =>
    obtain ⟨r, rs, hrr⟩ := List.exists_cons_of_ne_nil hn
    rw [GetDataRid_zero, ridsOf, hrr]
    simp

theorem findSlotBefore_all_eq (b : BTBlock) (k : Int)
    (h : ∀ r ∈ b.recs, r.dataval = k) : b.FindSlotBefore k = -1 := by
  rw [BTBlock.FindSlotBefore]
  have hempty : b.recs.takeWhile (fun r => decide (r.dataval < k)) = [] := by
    cases hrecs : b.recs with
    | nil => rfl
    | cons r rs =>
      rw [List.takeWhile_cons]
      have hr : r.dataval = k := h r (by rw [hrecs]; exact List.mem_cons_self r rs)
      simp [hr]
  rw [hempty]
  rfl

theorem root_getChildNum (s : Int) :
    DirBlock.GetChildNum ⟨0, [⟨0, minInt32⟩]⟩ s = 0 := by
  rw [DirBlock.GetChildNum]
  cases hs : s.toNat with
  | zero => rfl
  | succ n => rfl

theorem root_findChildBlock (k : Int) :
    DirBlock.findChildBlock ⟨0, [⟨0, minInt32⟩]⟩ k = 0 := by
  rw [DirBlock.findChildBlock]
  split
  · exact root_getChildNum _
  · exact root_getChildNum _

theorem dirSearch_root (k : Int) :
    dirSearch [⟨0, [⟨0, minInt32⟩]⟩] k 0 1 = 0 := by
  show dirSearch [⟨0, [⟨0, minInt32⟩]⟩] k 0 (0 + 1) = 0
  rw [dirSearch]
  rw [if_neg (by decide)]
  exact root_findChildBlock k

theorem beforeFirst_root (leafFile : List BTBlock) (k : Int) :
    BTreeIdx.BeforeFirst ⟨[⟨0, [⟨0, minInt32⟩]⟩], leafFile⟩ k =
      ⟨leafFile, 0, (getBlock leafFile 0).FindSlotBefore k, k⟩ := by
  rw [BTreeIdx.BeforeFirst]
  dsimp only
  rw [show ((getDir [(⟨0, [⟨0, minInt32⟩]⟩ : DirBlock)] 0).flag.toNat + 1) = 1
    from rfl, dirSearch_root]

theorem getDataVal_all (b : BTBlock) (k : Int)
    (ha : ∀ r ∈ b.recs, r.dataval = k) (m : Nat) (hm : m < b.recs.length) :
    b.GetDataVal (m : Int) = k := by
  rw [BTBlock.GetDataVal, Int.toNat_ofNat, List.getD_eq_getElem?_getD,
    List.getElem?_eq_getElem hm]
  exact ha _ (List.getElem_mem hm)

theorem getDataRid_eq (b : BTBlock) (m : Nat) (hm : m < b.recs.length) :
    b.GetDataRid (m : Int) = ridOfRec (b.recs[m]) := by
  rw [BTBlock.GetDataRid, ridOfRec, Int.toNat_ofNat, List.getD_eq_getElem?_getD,
    List.getElem?_eq_getElem hm]
  rfl

theorem next_hit (file : List BTBlock) (blk k : Int) (m : Nat)
    (hm : m < (getBlock file blk).recs.length)
    (hk : (getBlock file blk).GetDataVal (m : Int) = k) :
    LeafCursor.next ⟨file, blk, (m : Int) - 1, k⟩ =
      (true, ⟨file, blk, (m : Int), k⟩) := by
  rw [LeafCursor.next]
  dsimp only [LeafCursor.contents]
  rw [show ((m : Int) - 1) + 1 = (m : Int) by ring]
  rw [if_neg (by omega), if_pos hk]

theorem next_exhaust_end (file : List BTBlock) (blk k : Int) (m : Nat)
    (hm : ((getBlock file blk).recs.length : Int) ≤ (m : Int))
    (hf : (getBlock file blk).flag < 0) :
    LeafCursor.next ⟨file, blk, (m : Int) - 1, k⟩ =
      (false, ⟨file, blk, (m : Int), k⟩) := by
  rw [LeafCursor.next]
  dsimp only [LeafCursor.contents]
  rw [show ((m : Int) - 1) + 1 = (m : Int) by ring]
  rw [if_pos (by omega), LeafCursor.tryOverflow]
  dsimp only [LeafCursor.contents]
  rw [if_pos (Or.inr hf)]

theorem next_exhaust_jump (file : List BTBlock) (blk k : Int) (m : Nat)
    (hm : ((getBlock file blk).recs.length : Int) ≤ (m : Int))
    (hf : 0 < (getBlock file blk).flag)
    (hk : (getBlock file blk).GetDataVal 0 = k) :
    LeafCursor.next ⟨file, blk, (m : Int) - 1, k⟩ =
      (true, ⟨file, (getBlock file blk).flag, 0, k⟩) := by
  rw [LeafCursor.next]
  dsimp only [LeafCursor.contents]
  rw [show ((m : Int) - 1) + 1 = (m : Int) by ring]
  rw [if_pos (by omega), LeafCursor.tryOverflow]
  dsimp only [LeafCursor.contents]
  rw [if_neg (by rw [hk]; push_neg; exact ⟨rfl, by omega⟩)]

/-- Driving `next()` from slot `m − 1` of a chain block collects exactly the
remaining records of the chain, in order: the rest of the current block, then
each overflow block in turn. -/
theorem scanAux_chain (k : Int) (file : List BTBlock) (blk : Int)
    (rids : List RID) (hch : chain k file blk rids) :
    ∀ (fuel m : Nat), m ≤ (getBlock file blk).recs.length →
      rids.length - m + 1 ≤ fuel →
      scanAux ⟨file, blk, (m : Int) - 1, k⟩ fuel = rids.drop m := by
  induction hch with
  | last b h0 hl hf hn ha =>
    intro fuel
    induction fuel with
    | zero =>
      intro m hm hfl
      omega
    | succ f ihf =>
      intro m hm hfl
      rw [scanAux]
      by_cases hmn : m < (getBlock file b).recs.length
      · rw [next_hit file b k m hmn (getDataVal_all _ k ha m hmn)]
        dsimp only
        rw [if_pos rfl, LeafCursor.GetDataRid]
        dsimp only [LeafCursor.contents]
        rw [getDataRid_eq _ m hmn]
        have hc : (((m + 1 : Nat) : Int) - 1) = (m : Int) := by push_cast; ring
        have htail := ihf (m + 1) (by omega) (by
          have hl1 : (ridsOf (getBlock file b)).length =
              (getBlock file b).recs.length := by
            rw [ridsOf, List.length_map]
          omega)
        rw [hc] at htail
        rw [htail]
        have hdrop : (ridsOf (getBlock file b)).drop m =
            ridOfRec ((getBlock file b).recs[m]) ::
              (ridsOf (getBlock file b)).drop (m + 1) := by
          rw [ridsOf, ← List.map_drop, ← List.map_drop,
            List.drop_eq_getElem_cons hmn, List.map_cons]
        rw [hdrop]
      · have hm' : m = (getBlock file b).recs.length := by omega
        rw [next_exhaust_end file b k m (by omega) hf]
        dsimp only
        rw [if_neg Bool.false_ne_true]
        exact (List.drop_eq_nil_of_le (by rw [ridsOf, List.length_map]; omega)).symm
  | more b rids2 h0 hl hf hn ha hch ih =>
    intro fuel
    induction fuel with
    | zero =>
      intro m hm hfl
      omega
    | succ f ihf =>
      intro m hm hfl
      rw [scanAux]
      by_cases hmn : m < (getBlock file b).recs.length
      · rw [next_hit file b k m hmn (getDataVal_all _ k ha m hmn)]
        dsimp only
        rw [if_pos rfl, LeafCursor.GetDataRid]
        dsimp only [LeafCursor.contents]
        rw [getDataRid_eq _ m hmn]
        have hc : (((m + 1 : Nat) : Int) - 1) = (m : Int) := by push_cast; ring
        have htail := ihf (m + 1) (by omega) (by
          have hl1 : (ridsOf (getBlock file b) ++ rids2).length =
              (getBlock file b).recs.length + rids2.length := by
            rw [List.length_append, ridsOf, List.length_map]
          omega)
        rw [hc] at htail
        rw [htail]
        have hdrop : ((ridsOf (getBlock file b) ++ rids2)).drop m =
            ridOfRec ((getBlock file b).recs[m]) ::
              ((ridsOf (getBlock file b) ++ rids2)).drop (m + 1) := by
          rw [List.drop_append_of_le_length
              (by rw [ridsOf, List.length_map]; omega),
            List.drop_append_of_le_length
              (by rw [ridsOf, List.length_map]; omega),
            ridsOf, ← List.map_drop, ← List.map_drop,
            List.drop_eq_getElem_cons hmn, List.map_cons]
          rfl
        rw [hdrop]
      · have hm' : m = (getBlock file b).recs.length := by omega
        have hk0 : (getBlock file b).GetDataVal 0 = k := by
          have h0lt : 0 < (getBlock file b).recs.length :=
            List.length_pos.mpr hn
          have h00 := getDataVal_all _ k ha 0 h0lt
          simpa using h00
        rw [next_exhaust_jump file b k m (by omega) hf hk0]
        dsimp only
        rw [if_pos rfl]
        have hnn : (getBlock file (getBlock file b).flag).recs ≠ [] :=
          chain_ne_nil k file _ rids2 hch
        have h1le : 1 ≤ (getBlock file (getBlock file b).flag).recs.length := by
          have hp := List.length_pos.mpr hnn
          omega
        have hrlen : 1 ≤ rids2.length := by
          rw [chain_head_cons k file _ rids2 hch]
          simp
        have htail := ih f 1 h1le (by
          have hl1 : (ridsOf (getBlock file b) ++ rids2).length =
              (getBlock file b).recs.length + rids2.length := by
            rw [List.length_append, ridsOf, List.length_map]
          omega)
        have h10 : (((1 : Nat) : Int) - 1) = (0 : Int) := by decide
        rw [h10] at htail
        rw [htail]
        have hdl : (ridsOf (getBlock file b) ++ rids2).drop m = rids2 :=
          List.drop_left' (by rw [ridsOf, List.length_map]; omega)
        rw [hdl, LeafCursor.GetDataRid]
        dsimp only [LeafCursor.contents]
        rw [List.drop_one]
        exact (chain_head_cons k file _ rids2 hch).symm

theorem getBlock_set_nat (file : List BTBlock) (n : Nat) (b : BTBlock)
    (hlt : n < file.length) : getBlock (file.set n b) (n : Int) = b :=
  getBlock_set_self file (n : Int) b (by omega) (by simpa)

theorem getBlock_insertLeafF_self (file : List BTBlock) (blk : Int) (slot : Nat)
    (val : Int) (rid : RID) (h0 : 0 ≤ blk) (hl : blk.toNat < file.length) :
    getBlock (insertLeafF file blk slot val rid) blk =
      { getBlock file blk with
        recs := (getBlock file blk).recs.insertIdx slot
          ⟨val, rid.blockNumber, rid.slot⟩ } := by
  rw [insertLeafF]
  dsimp only
  exact getBlock_set_self _ _ _ h0 hl

theorem getBlock_insertLeafF_ne (file : List BTBlock) (blk : Int) (slot : Nat)
    (val : Int) (rid : RID) (j : Int) (h : j.toNat ≠ blk.toNat) :
    getBlock (insertLeafF file blk slot val rid) j = getBlock file j := by
  rw [insertLeafF]
  exact getBlock_set_ne _ _ _ _ h

/-- `BTreeLeaf.Insert`, read off the code: when the special prepend case does
not apply and the page is not full after the insert, the record goes in at
the slot after the cursor and no directory entry is promoted. -/
theorem leafInsert_notfull (P : BTreeParams) (c : LeafCursor) (datarid : RID)
    (s : Nat) (hs : (c.currentSlot + 1).toNat = s)
    (h1 : ¬ (0 ≤ c.contents.flag ∧ c.contents.GetDataVal 0 > c.searchKey))
    (h2 : ¬ (getBlock (insertLeafF c.file c.blk s
      c.searchKey datarid) c.blk).IsFull P) :
    leafInsert P c datarid =
      ({ c with
          currentSlot := c.currentSlot + 1
          file := insertLeafF c.file c.blk s
            c.searchKey datarid }, none) := by
  subst hs
  rw [leafInsert, if_neg h1]
  rw [if_pos h2]

/-- `BTreeLeaf.Insert`, read off the code: when the page is full after the
insert and its first and last keys agree, slots `[1..]` move to a fresh block
whose flag is the old one, the page's flag is set to the fresh block's
number, and no directory entry is promoted. -/
theorem leafInsert_case2 (P : BTreeParams) (c : LeafCursor) (datarid : RID)
    (s : Nat) (hs : (c.currentSlot + 1).toNat = s)
    (f1 : List BTBlock) (b1 : BTBlock)
    (hf1 : f1 = insertLeafF c.file c.blk s c.searchKey datarid)
    (hb1 : b1 = getBlock f1 c.blk)
    (h1 : ¬ (0 ≤ c.contents.flag ∧ c.contents.GetDataVal 0 > c.searchKey))
    (h2 : b1.IsFull P)
    (h3 : b1.GetDataVal ((b1.recs.length : Int) - 1) = b1.GetDataVal 0) :
    leafInsert P c datarid =
      ({ c with
          currentSlot := c.currentSlot + 1
          file := setFlagF (splitF f1 c.blk 1 b1.flag).1 c.blk
            (splitF f1 c.blk 1 b1.flag).2 }, none) := by
  subst hs
  subst hf1
  subst hb1
  rw [leafInsert, if_neg h1]
  rw [if_neg (not_not_intro h2), if_pos h3]

/-- The file produced by the all-keys-equal overflow split: one block longer;
the split block keeps slot 0 and points at the fresh block; the fresh block,
at the old end of the file, holds slots `[1..]` under the old flag; all other
blocks are untouched. -/
theorem case2_file_blocks (file : List BTBlock) (blk : Int)
    (f1 f3 : List BTBlock) (b1 : BTBlock)
    (hlen1 : f1.length = file.length)
    (hb1 : b1 = getBlock f1 blk)
    (hf3 : f3 = setFlagF (splitF f1 blk 1 b1.flag).1 blk
      (splitF f1 blk 1 b1.flag).2)
    (hblk0 : 0 ≤ blk) (hblkl : blk.toNat < file.length) :
    f3.length = file.length + 1 ∧
    getBlock f3 blk = ⟨(file.length : Int), b1.recs.take 1⟩ ∧
    getBlock f3 (file.length : Int) = ⟨b1.flag, b1.recs.drop 1⟩ ∧
    ∀ j : Int, j.toNat ≠ blk.toNat → j.toNat < file.length →
      getBlock f3 j = getBlock f1 j := by
  rw [← hlen1] at hblkl ⊢
  have hs : splitF f1 blk 1 b1.flag =
      (((f1 ++ [(⟨b1.flag, []⟩ : BTBlock)]).set blk.toNat
          { b1 with recs := b1.recs.take 1 }).set f1.length
        (⟨b1.flag, b1.recs.drop 1⟩ : BTBlock), (f1.length : Int)) := by
    rw [splitF]
    rw [← hb1]
  have hA : getBlock (((f1 ++ [(⟨b1.flag, []⟩ : BTBlock)]).set blk.toNat
      { b1 with recs := b1.recs.take 1 }).set f1.length
        (⟨b1.flag, b1.recs.drop 1⟩ : BTBlock)) blk =
      { b1 with recs := b1.recs.take 1 } := by
    rw [getBlock_set_ne _ _ _ _ (by omega)]
    exact getBlock_set_self _ _ _ hblk0 (by rw [List.length_append]; omega)
  have hf3' : f3 = (((f1 ++ [(⟨b1.flag, []⟩ : BTBlock)]).set blk.toNat
      { b1 with recs := b1.recs.take 1 }).set f1.length
        (⟨b1.flag, b1.recs.drop 1⟩ : BTBlock)).set blk.toNat
        (⟨(f1.length : Int), b1.recs.take 1⟩ : BTBlock) := by
    rw [hf3, hs, setFlagF]
    dsimp only
    rw [hA]
  refine ⟨?_, ?_, ?_, ?_⟩
  · rw [hf3']
    simp [List.length_set, List.length_append]
  · rw [hf3']
    exact getBlock_set_self _ _ _ hblk0
      (by simp only [List.length_set, List.length_append]; omega)
  · rw [hf3']
    rw [getBlock_set_ne _ _ _ _ (by rw [Int.toNat_ofNat]; omega)]
    exact getBlock_set_nat _ _ _
      (by simp [List.length_set, List.length_append])
  · intro j hj hjl
    rw [hf3']
    rw [getBlock_set_ne _ _ _ _ hj]
    rw [getBlock_set_ne _ _ _ _ (by omega)]
    rw [getBlock_set_ne _ _ _ _ hj]
    exact getBlock_append _ _ _ (by omega)

/-- Prepending a same-key record to the head block of a chain rooted at
block 0 prepends its RID to the chain's contents, provided all other blocks
are untouched. -/
theorem chain_cons_head (k : Int) (file file' : List BTBlock) (rid : RID)
    (rep : List RID) (hch : chain k file 0 rep)
    (hlen : file.length ≤ file'.length)
    (hhead : getBlock file' 0 = ⟨(getBlock file 0).flag,
      ⟨k, rid.blockNumber, rid.slot⟩ :: (getBlock file 0).recs⟩)
    (hmid : ∀ j : Int, 1 ≤ j → j.toNat < file.length →
      getBlock file' j = getBlock file j) :
    chain k file' 0 (rid :: rep) := by
  cases hch with
  | last b h0 hl hf hn ha =>
    have h := @chain.last k file' 0 (by omega)
      (by simp only [Int.toNat_zero] at hl ⊢; omega)
      (by rw [hhead]; exact hf)
      (by rw [hhead]; exact List.cons_ne_nil _ _)
      (by
        rw [hhead]
        intro r hr
        rcases List.mem_cons.mp hr with hr0 | hrest
        · rw [hr0]
        · exact ha r hrest)
    have hrids : ridsOf (getBlock file' 0) = rid :: ridsOf (getBlock file 0) := by
      rw [hhead, ridsOf, ridsOf, List.map_cons]
      rfl
    rw [hrids] at h
    exact h
  | more b rep2 h0 hl hf hn ha hsub =>
    have hflag' : (getBlock file' 0).flag = (getBlock file 0).flag := by
      rw [hhead]
    have hsub' : chain k file' ((getBlock file' 0).flag) rep2 := by
      rw [hflag']
      exact chain_congr k file file' _ rep2 hsub hlen hmid (by omega)
    have h := @chain.more k file' 0 rep2 (by omega)
      (by simp only [Int.toNat_zero] at hl ⊢; omega)
      (by rw [hflag']; exact hf)
      (by rw [hhead]; exact List.cons_ne_nil _ _)
      (by
        rw [hhead]
        intro r hr
        rcases List.mem_cons.mp hr with hr0 | hrest
        · rw [hr0]
        · exact ha r hrest)
      hsub'
    have hrids : ridsOf (getBlock file' 0) = rid :: ridsOf (getBlock file 0) := by
      rw [hhead, ridsOf, ridsOf, List.map_cons]
      rfl
    rw [hrids] at h
    exact h

/-- Moving the head block of a chain to position `L` (as the overflow split
does) keeps it a chain with the same contents, provided all other blocks are
untouched. -/
theorem chain_relocate (k : Int) (file file' : List BTBlock) (L : Nat)
    (rep : List RID) (hch : chain k file 0 rep)
    (hlen : file.length ≤ file'.length) (hLlt : L < file'.length)
    (hL : getBlock file' (L : Int) = getBlock file 0)
    (hmid : ∀ j : Int, 1 ≤ j → j.toNat < file.length →
      getBlock file' j = getBlock file j) :
    chain k file' (L : Int) rep := by
  cases hch with
  | last b h0 hl hf hn ha =>
    have h := @chain.last k file' (L : Int) (by omega)
      (by simpa using hLlt)
      (by rw [hL]; exact hf)
      (by rw [hL]; exact hn)
      (by rw [hL]; exact ha)
    rw [hL] at h
    exact h
  | more b rep2 h0 hl hf hn ha hsub =>
    have hsub' : chain k file' ((getBlock file' (L : Int)).flag) rep2 := by
      rw [hL]
      exact chain_congr k file file' _ rep2 hsub hlen hmid (by omega)
    have h := @chain.more k file' (L : Int) rep2 (by omega)
      (by simpa using hLlt)
      (by rw [hL]; exact hf)
      (by rw [hL]; exact hn)
      (by rw [hL]; exact ha)
      hsub'
    rw [hL] at h
    exact h

theorem newIndex_inv (k : Int) : IdxInv k NewBTreeIndexState [] :=
  ⟨rfl, by decide, Or.inl ⟨by decide, rfl, rfl⟩⟩

/-- One same-key `Insert` never promotes a directory entry and extends the
invariant by the inserted RID, as long as a block can hold at least two
records. -/
theorem insert_step (P : BTreeParams) (k : Int) (rid : RID) (st : BTreeIdx)
    (inserted : List RID)
    (hcap : 8 + 2 * P.leafSlotSize < P.blockSize)
    (hinv : IdxInv k st inserted) :
    IdxInv k (st.Insert P k rid) (rid :: inserted) := by
  obtain ⟨d, lf⟩ := st
  obtain ⟨hdir, hlflen, hdisj⟩ := hinv
  dsimp only at hdir hlflen hdisj
  subst hdir
  rcases hdisj with ⟨hflag, hrecs, hins⟩ | ⟨rep, hch, hperm⟩
  · -- the leaf file is still the fresh formatted block
    subst hins
    have hfsb : (getBlock lf 0).FindSlotBefore k = -1 :=
      findSlotBefore_all_eq _ _ (by rw [hrecs]; intro r hr; cases hr)
    have hb1 : getBlock (insertLeafF lf 0 0 k rid) 0 =
        ⟨(getBlock lf 0).flag, [⟨k, rid.blockNumber, rid.slot⟩]⟩ := by
      rw [getBlock_insertLeafF_self lf 0 0 k rid (by omega)
        (by simp only [Int.toNat_zero]; omega)]
      rw [hrecs, List.insertIdx_zero]
    have hnf : ¬ (getBlock (insertLeafF lf 0 0 k rid) 0).IsFull P := by
      rw [hb1, BTBlock.IsFull]
      simp only [List.length_cons, List.length_nil]
      push_cast
      omega
    have h1A : ¬ (0 ≤ (getBlock lf 0).flag ∧
        (getBlock lf 0).GetDataVal 0 > k) :=
      fun hcon => absurd hcon.1 (by omega)
    have hli := leafInsert_notfull P ⟨lf, 0, -1, k⟩ rid 0 (by norm_num) h1A hnf
    rw [BTreeIdx.Insert, beforeFirst_root, hfsb, hli]
    dsimp only
    refine ⟨rfl, ?_, Or.inr ⟨[rid], ?_, List.Perm.refl _⟩⟩
    · show 1 ≤ (insertLeafF lf 0 0 k rid).length
      rw [length_insertLeafF]
      omega
    · show chain k (insertLeafF lf 0 0 k rid) 0 [rid]
      have h := @chain.last k (insertLeafF lf 0 0 k rid) 0
        (by omega)
        (by simp only [Int.toNat_zero]; rw [length_insertLeafF]; omega)
        (by rw [hb1]; exact hflag)
        (by rw [hb1]; exact List.cons_ne_nil _ _)
        (by
          rw [hb1]
          intro r hr
          rcases List.mem_cons.mp hr with h0 | h0
          · rw [h0]
          · cases h0)
      have hr : ridsOf (getBlock (insertLeafF lf 0 0 k rid) 0) = [rid] := by
        rw [hb1, ridsOf]
        rfl
      rw [hr] at h
      exact h
  · -- the leaf file heads a chain of same-key records
    have hne := chain_ne_nil k lf 0 rep hch
    have hall := chain_all_k k lf 0 rep hch
    have h0len : 0 < (getBlock lf 0).recs.length := List.length_pos.mpr hne
    have hk0 : (getBlock lf 0).GetDataVal 0 = k := by
      simpa using getDataVal_all _ k hall 0 h0len
    have hfsb : (getBlock lf 0).FindSlotBefore k = -1 :=
      findSlotBefore_all_eq _ _ hall
    have h1 : ¬ (0 ≤ (getBlock lf 0).flag ∧
        (getBlock lf 0).GetDataVal 0 > k) := by
      intro hcon
      rw [hk0] at hcon
      exact absurd hcon.2 (by omega)
    have hb1 : getBlock (insertLeafF lf 0 0 k rid) 0 =
        ⟨(getBlock lf 0).flag,
          ⟨k, rid.blockNumber, rid.slot⟩ :: (getBlock lf 0).recs⟩ := by
      rw [getBlock_insertLeafF_self lf 0 0 k rid (by omega)
        (by simp only [Int.toNat_zero]; omega), List.insertIdx_zero]
    have hmid1 : ∀ j : Int, 1 ≤ j → j.toNat < lf.length →
        getBlock (insertLeafF lf 0 0 k rid) j = getBlock lf j := by
      intro j hj _
      exact getBlock_insertLeafF_ne lf 0 0 k rid j
        (by simp only [Int.toNat_zero]; omega)
    by_cases hfull : (getBlock (insertLeafF lf 0 0 k rid) 0).IsFull P
    · -- case 2 of the insert: the all-keys-equal overflow split
      have hallb1 : ∀ r ∈ (getBlock (insertLeafF lf 0 0 k rid) 0).recs,
          r.dataval = k := by
        rw [hb1]
        intro r hr
        rcases List.mem_cons.mp hr with h0 | h0
        · rw [h0]
        · exact hall r h0
      have hlenb1 : 0 < (getBlock (insertLeafF lf 0 0 k rid) 0).recs.length := by
        rw [hb1]
        simp
      have hlast : (getBlock (insertLeafF lf 0 0 k rid) 0).GetDataVal
          (((getBlock (insertLeafF lf 0 0 k rid) 0).recs.length : Int) - 1) =
            k := by
        have h := getDataVal_all _ k hallb1
          ((getBlock (insertLeafF lf 0 0 k rid) 0).recs.length - 1) (by omega)
        rw [show (((getBlock (insertLeafF lf 0 0 k rid) 0).recs.length -
              1 : Nat) : Int) =
            ((getBlock (insertLeafF lf 0 0 k rid) 0).recs.length : Int) - 1
          by omega] at h
        exact h
      have hfirstb1 : (getBlock (insertLeafF lf 0 0 k rid) 0).GetDataVal 0 =
          k := by
        simpa using getDataVal_all _ k hallb1 0 hlenb1
      have hli := leafInsert_case2 P ⟨lf, 0, -1, k⟩ rid 0 (by norm_num)
        (insertLeafF lf 0 0 k rid) (getBlock (insertLeafF lf 0 0 k rid) 0)
        rfl rfl h1 hfull (hlast.trans hfirstb1.symm)
      have hcb := case2_file_blocks lf 0
        (insertLeafF lf 0 0 k rid)
        (setFlagF (splitF (insertLeafF lf 0 0 k rid) 0 1
            (getBlock (insertLeafF lf 0 0 k rid) 0).flag).1 0
          (splitF (insertLeafF lf 0 0 k rid) 0 1
            (getBlock (insertLeafF lf 0 0 k rid) 0).flag).2)
        (getBlock (insertLeafF lf 0 0 k rid) 0)
        (length_insertLeafF lf 0 0 k rid) rfl rfl (by omega)
        (by simp only [Int.toNat_zero]; omega)
      obtain ⟨hlen3, h0b, hLb, hmid3⟩ := hcb
      have h0b' : getBlock (setFlagF (splitF (insertLeafF lf 0 0 k rid) 0 1
            (getBlock (insertLeafF lf 0 0 k rid) 0).flag).1 0
          (splitF (insertLeafF lf 0 0 k rid) 0 1
            (getBlock (insertLeafF lf 0 0 k rid) 0).flag).2) 0 =
          ⟨(lf.length : Int), [⟨k, rid.blockNumber, rid.slot⟩]⟩ := by
        rw [h0b, hb1]
        rfl
      have hLb' : getBlock (setFlagF (splitF (insertLeafF lf 0 0 k rid) 0 1
            (getBlock (insertLeafF lf 0 0 k rid) 0).flag).1 0
          (splitF (insertLeafF lf 0 0 k rid) 0 1
            (getBlock (insertLeafF lf 0 0 k rid) 0).flag).2)
            (lf.length : Int) = getBlock lf 0 := by
        rw [hLb, hb1]
        rfl
      have hrel := chain_relocate k lf
        (setFlagF (splitF (insertLeafF lf 0 0 k rid) 0 1
            (getBlock (insertLeafF lf 0 0 k rid) 0).flag).1 0
          (splitF (insertLeafF lf 0 0 k rid) 0 1
            (getBlock (insertLeafF lf 0 0 k rid) 0).flag).2)
        lf.length rep hch (by omega) (by omega) hLb'
        (by
          intro j hj hjl
          rw [hmid3 j (by simp only [Int.toNat_zero]; omega) hjl,
            hmid1 j hj hjl])
      have hchain : chain k (setFlagF (splitF (insertLeafF lf 0 0 k rid) 0 1
            (getBlock (insertLeafF lf 0 0 k rid) 0).flag).1 0
          (splitF (insertLeafF lf 0 0 k rid) 0 1
            (getBlock (insertLeafF lf 0 0 k rid) 0).flag).2) 0
          (rid :: rep) := by
        have h := @chain.more k (setFlagF (splitF (insertLeafF lf 0 0 k rid) 0 1
            (getBlock (insertLeafF lf 0 0 k rid) 0).flag).1 0
          (splitF (insertLeafF lf 0 0 k rid) 0 1
            (getBlock (insertLeafF lf 0 0 k rid) 0).flag).2) 0 rep (by omega)
          (by simp only [Int.toNat_zero]; omega)
          (by rw [h0b']; dsimp only; omega)
          (by rw [h0b']; exact List.cons_ne_nil _ _)
          (by
            rw [h0b']
            intro r hr
            rcases List.mem_singleton.mp hr with rfl
            rfl)
          (by rw [h0b']; exact hrel)
        have hr0 : ridsOf (getBlock (setFlagF (splitF
              (insertLeafF lf 0 0 k rid) 0 1
              (getBlock (insertLeafF lf 0 0 k rid) 0).flag).1 0
            (splitF (insertLeafF lf 0 0 k rid) 0 1
              (getBlock (insertLeafF lf 0 0 k rid) 0).flag).2) 0) = [rid] := by
          rw [h0b', ridsOf]
          rfl
        rw [hr0] at h
        exact h
      rw [BTreeIdx.Insert, beforeFirst_root, hfsb, hli]
      dsimp only
      exact ⟨rfl, by rw [hlen3]; omega,
        Or.inr ⟨rid :: rep, hchain, List.Perm.cons rid hperm⟩⟩
    · -- the insert fits in the head block
      have hli := leafInsert_notfull P ⟨lf, 0, -1, k⟩ rid 0 (by norm_num) h1 hfull
      have hchain := chain_cons_head k lf (insertLeafF lf 0 0 k rid) rid rep
        hch (length_insertLeafF lf 0 0 k rid).ge hb1 hmid1
      rw [BTreeIdx.Insert, beforeFirst_root, hfsb, hli]
      dsimp only
      exact ⟨rfl, by rw [length_insertLeafF]; omega,
        Or.inr ⟨rid :: rep, hchain, List.Perm.cons rid hperm⟩⟩

theorem insertAll_inv (P : BTreeParams) (k : Int)
    (hcap : 8 + 2 * P.leafSlotSize < P.blockSize) (rids : List RID) :
    ∀ (st : BTreeIdx) (inserted : List RID), IdxInv k st inserted →
      IdxInv k (BTreeIdx.InsertAll P k st rids) (rids.reverse ++ inserted) := by
  induction rids with
  | nil =>
    intro st inserted h
    simpa using h
  | cons rid rest ih =>
    intro st inserted h
    rw [BTreeIdx.InsertAll]
    have h2 := ih (st.Insert P k rid) (rid :: inserted)
      (insert_step P k rid st inserted hcap h)
    simpa [List.reverse_cons, List.append_assoc] using h2

/-- A scan positioned by `FindSlotBefore` on the invariant leaf file yields a
permutation of the inserted RIDs, given enough `next()` calls. -/
theorem scan_topInv (k : Int) (file : List BTBlock) (inserted : List RID)
    (hinv : TopInv k file inserted) (fuel : Nat)
    (hfuel : inserted.length + 1 ≤ fuel) :
    (scanAux ⟨file, 0, (getBlock file 0).FindSlotBefore k, k⟩ fuel).Perm
      inserted := by
  obtain ⟨hlen, hdisj⟩ := hinv
  rcases hdisj with ⟨hflag, hrecs, hins⟩ | ⟨rep, hch, hperm⟩
  · subst hins
    have hfsb : (getBlock file 0).FindSlotBefore k = -1 :=
      findSlotBefore_all_eq _ _ (by rw [hrecs]; intro r hr; cases hr)
    cases fuel with
    | zero => omega
    | succ f =>
      rw [hfsb, show (-1 : Int) = ((0 : Nat) : Int) - 1 from by decide,
        scanAux]
      rw [next_exhaust_end file 0 k 0 (by rw [hrecs]; decide) hflag]
      dsimp only
      rw [if_neg Bool.false_ne_true]
  · have hall := chain_all_k k file 0 rep hch
    have hfsb : (getBlock file 0).FindSlotBefore k = -1 :=
      findSlotBefore_all_eq _ _ hall
    have hlenr : rep.length = inserted.length := hperm.length_eq
    have hs := scanAux_chain k file 0 rep hch fuel 0 (by omega) (by omega)
    rw [hfsb, show (-1 : Int) = ((0 : Nat) : Int) - 1 from by decide, hs]
    simpa using hperm

/-- C8: for N insertions of one key k with pairwise distinct RIDs into a
fresh B-tree index, driving `next()` from `beforeFirst(k)` yields exactly N
true iterations whose `getDataRid()` values are a permutation of the inserted
RIDs; and whenever an insert fills a leaf whose first and last keys agree,
slots [1..] move to a new overflow block holding the old flag, the leaf's
flag is set to that block's number, and no directory entry is promoted. -/
theorem C8_btree_duplicate_keys (P : BTreeParams) (k : Int) (rids : List RID)
    (hcap : 8 + 2 * P.leafSlotSize < P.blockSize)
    (hnd : rids.Nodup) (fuel : Nat) (hfuel : rids.length + 1 ≤ fuel) :
    ((scanAux ((BTreeIdx.InsertAll P k NewBTreeIndexState rids).BeforeFirst k)
        fuel).Perm rids ∧
      (scanAux ((BTreeIdx.InsertAll P k NewBTreeIndexState rids).BeforeFirst k)
        fuel).length = rids.length) ∧
    (∀ (c : LeafCursor) (datarid : RID) (f1 : List BTBlock) (b1 : BTBlock),
      f1 = insertLeafF c.file c.blk (c.currentSlot + 1).toNat c.searchKey
        datarid →
      b1 = getBlock f1 c.blk →
      0 ≤ c.blk → c.blk.toNat < c.file.length →
      ¬ (0 ≤ c.contents.flag ∧ c.contents.GetDataVal 0 > c.searchKey) →
      b1.IsFull P →
      b1.GetDataVal ((b1.recs.length : Int) - 1) = b1.GetDataVal 0 →
      (leafInsert P c datarid).2 = none ∧
      (leafInsert P c datarid).1.file.length = c.file.length + 1 ∧
      getBlock (leafInsert P c datarid).1.file (c.file.length : Int) =
        ⟨b1.flag, b1.recs.drop 1⟩ ∧
      (getBlock (leafInsert P c datarid).1.file c.blk).flag =
        (c.file.length : Int) ∧
      (getBlock (leafInsert P c datarid).1.file c.blk).recs =
        b1.recs.take 1) := by
  constructor
  · have hinv := insertAll_inv P k hcap rids NewBTreeIndexState []
      (newIndex_inv k)
    rw [List.append_nil] at hinv
    cases hst : BTreeIdx.InsertAll P k NewBTreeIndexState rids with
    | mk d lf =>
      rw [hst] at hinv
      obtain ⟨hdir, htop⟩ := hinv
      dsimp only at hdir htop
      subst hdir
      rw [beforeFirst_root]
      have hp := (scan_topInv k lf rids.reverse htop fuel
        (by rw [List.length_reverse]; omega)).trans (List.reverse_perm rids)
      exact ⟨hp, hp.length_eq⟩
  · intro c datarid f1 b1 hf1 hb1 hblk0 hblkl h1 h2 h3
    have hli := leafInsert_case2 P c datarid (c.currentSlot + 1).toNat rfl
      f1 b1 hf1 hb1 h1 h2 h3
    have hcb := case2_file_blocks c.file c.blk f1
      (setFlagF (splitF f1 c.blk 1 b1.flag).1 c.blk
        (splitF f1 c.blk 1 b1.flag).2) b1
      (by rw [hf1, length_insertLeafF]) hb1 rfl hblk0 hblkl
    obtain ⟨hL, h0b, hLb, _⟩ := hcb
    rw [hli]
    dsimp only
    exact ⟨rfl, hL, hLb, by rw [h0b], by rw [h0b]⟩

/-- Witness: three inserts of key 5 with distinct RIDs into an index whose
leaves hold at most two records (one overflow split occurs), then a scan with
four `next()` calls. -/
theorem C8_btree_witness :
    8 + 2 * (⟨29, 10, 10⟩ : BTreeParams).leafSlotSize <
        (⟨29, 10, 10⟩ : BTreeParams).blockSize ∧
    ([(⟨1, 1⟩ : RID), ⟨1, 2⟩, ⟨1, 3⟩]).Nodup ∧
    (scanAux ((BTreeIdx.InsertAll ⟨29, 10, 10⟩ 5 NewBTreeIndexState
        [⟨1, 1⟩, ⟨1, 2⟩, ⟨1, 3⟩]).BeforeFirst 5) 4).Perm
      [⟨1, 1⟩, ⟨1, 2⟩, ⟨1, 3⟩] :=
  ⟨by decide, by decide,
    ((C8_btree_duplicate_keys ⟨29, 10, 10⟩ 5 [⟨1, 1⟩, ⟨1, 2⟩, ⟨1, 3⟩]
      (by decide) (by decide) 4 (by decide)).1).1⟩

end CentauriDB
